import Mathlib

/-!
Verification of the query-aggregation, identity-normalization and
cross-referenced-export pipeline of `scrape_arcgis.py`.

The Python code is shallowly embedded: JSON-ish attribute values become the
inductive `Val`, Python dicts become ordered association lists (`Dict`),
Python strings become `List Char` (with `String` wrappers at the interface),
and the paging loop of `query_features` becomes a fuel-indexed recursion
(`none` = fuel exhausted; the fuel is always chosen large enough for the
terminating executions studied here).

Modelling notes (each noted again at the definition it concerns):
* Python `set` objects of hashable keys are represented as lists of keys with
  membership lookup — only membership is ever used by the code.
* Character classes (`isdigit`, `upper`, whitespace) are modelled over ASCII;
  every string the claims touch is ASCII.
* `float(...)` parsing inside `_unit_sort_key` is modelled on the fragment the
  data exercises: non-negative decimal integer literals, on which Python float
  parsing and `%012.4f` formatting are exact.
-/

/-- ASCII double-quote character, written via its code so that parsers and
formula builders can share the same literal. -/
def dq : Char := Char.ofNat 34

/-- ASCII apostrophe (single-quote) character. -/
def apos : Char := Char.ofNat 39

/-- A JSON-ish attribute value as it appears in an ArcGIS response page.
`Val.null` stands for Python `None`, which `dict.get` also returns for a
missing key. -/
inductive Val where
  | null : Val
  | bool (b : Bool) : Val
  | str (s : String) : Val
  | num (n : Int) : Val
deriving DecidableEq, Repr

/-- A Python dict with string keys, as an ordered association list
(Python dicts preserve insertion order). -/
abbrev Dict := List (String × Val)

/-- Lookup of a key in a dict (`d[k]` / `d.get(k)` when present). -/
def dictLookup (d : Dict) (k : String) : Option Val :=
  (d.find? (fun p => p.1 == k)).map (fun p => p.2)

/-- Python `d.get(k, default)`. -/
def pyGetD (d : Dict) (k : String) (dflt : Val) : Val :=
  (dictLookup d k).getD dflt

/-- Python `d[k] = v`: replace the value in place if the key exists
(insertion order preserved), otherwise append the new pair.  On a dict with
unique keys this is exactly Python dict assignment. -/
def dictSet (d : Dict) (k : String) (v : Val) : Dict :=
  match d with
  | [] => [(k, v)]
  | p :: rest => if p.1 == k then (k, v) :: rest else p :: dictSet rest k v

theorem dictLookup_dictSet_self (d : Dict) (k : String) (v : Val) :
    dictLookup (dictSet d k v) k = some v := by
  induction d with
  | nil => simp [dictSet, dictLookup, List.find?]
  | cons q d ih =>
    by_cases hq : q.1 == k
    · simp [dictSet, dictLookup, List.find?, hq]
    · simp only [dictSet, hq, Bool.false_eq_true, if_false]
      simpa [dictLookup, List.find?_cons, hq] using ih

theorem dictLookup_dictSet_ne (d : Dict) (k k' : String) (v : Val)
    (hne : k' ≠ k) : dictLookup (dictSet d k v) k' = dictLookup d k' := by
  have hkk' : (k == k') = false := beq_eq_false_iff_ne.mpr (Ne.symm hne)
  induction d with
  | nil => simp [dictSet, dictLookup, List.find?, hkk']
  | cons q d ih =>
    by_cases hq : q.1 == k
    · have hqk : q.1 = k := by simpa using hq
      have hqk' : (q.1 == k') = false := by rw [hqk]; exact hkk'
      simp [dictSet, dictLookup, List.find?_cons, hq, hkk', hqk']
    · simp only [dictSet, hq, Bool.false_eq_true, if_false]
      by_cases hq' : q.1 == k'
      · simp [dictLookup, List.find?_cons, hq']
      · simpa [dictLookup, List.find?_cons, hq'] using ih

/-- One retrieved feature: its `attributes` dict plus the rest of the feature
dict (geometry and any other keys), which the dedup logic never inspects. -/
structure Feature where
  attributes : Dict
  extra : Dict := []
deriving DecidableEq, Repr

/-- Python `attrs.get(k)`: the stored value, or `None` when the key is absent
(an explicitly stored `None` is indistinguishable from absence, as in Python). -/
def attrGet (d : Dict) (k : String) : Val :=
  (dictLookup d k).getD Val.null

/-- `_feature_key` (scrape_arcgis.py:1114-1119): the dedup identity key of a
feature is the triple of its schedule / parcel / object-id attributes. -/
def _feature_key (f : Feature) : Val × Val × Val :=
  (attrGet f.attributes "PropertyScheduleText",
   attrGet f.attributes "HC_RegistrationsOriginalCleaned",
   attrGet f.attributes "OBJECTID")

/-- The key every feature lacking all three identity attributes receives. -/
def nullFeatureKey : Val × Val × Val := (Val.null, Val.null, Val.null)

/-- `_append_unique_features` (scrape_arcgis.py:1101-1111).  The Python `seen`
set of hashable key tuples is modelled as a list of keys used only through
membership, exactly as the code uses the set. -/
def _append_unique_features (acc : List Feature) (seen : List (Val × Val × Val)) :
    List Feature → List Feature × List (Val × Val × Val)
  | [] => (acc, seen)
  | f :: fs =>
    let k := _feature_key f
    if k ∈ seen then _append_unique_features acc seen fs
    else _append_unique_features (acc ++ [f]) (seen ++ [k]) fs

/-- The per-region merge loop of `main` (scrape_arcgis.py:518-549), restricted
to the feature accumulation: regions are processed sequentially against one
shared accumulator and seen-key set. -/
def aggregateRegions (regions : List (List Feature)) : List Feature × List (Val × Val × Val) :=
  regions.foldl (fun st fs => _append_unique_features st.1 st.2 fs) ([], [])

/-- The features kept by one `_append_unique_features` pass, with the
accumulator externalized (specification helper). -/
def keepUnseen (seen : List (Val × Val × Val)) : List Feature → List Feature
  | [] => []
  | f :: fs =>
    let k := _feature_key f
    if k ∈ seen then keepUnseen seen fs
    else f :: keepUnseen (seen ++ [k]) fs

/-- First-seen distinct elements of a list, excluding an initial seen set
(specification helper, generic in the element type). -/
def firstSeenAux {α : Type} [DecidableEq α] (seen : List α) : List α → List α
  | [] => []
  | k :: ks => if k ∈ seen then firstSeenAux seen ks
               else k :: firstSeenAux (seen ++ [k]) ks

theorem append_unique_eq_keep (l : List Feature) :
    ∀ acc seen, _append_unique_features acc seen l =
      (acc ++ keepUnseen seen l, seen ++ (keepUnseen seen l).map _feature_key) := by
  induction l with
  | nil => intro acc seen; simp [_append_unique_features, keepUnseen]
  | cons f fs ih =>
    intro acc seen
    by_cases h : _feature_key f ∈ seen
    · simp [_append_unique_features, keepUnseen, h, ih]
    · simp [_append_unique_features, keepUnseen, h, ih, List.append_assoc]

theorem keepUnseen_append (l₁ l₂ : List Feature) :
    ∀ seen, keepUnseen seen (l₁ ++ l₂) =
      keepUnseen seen l₁ ++ keepUnseen (seen ++ (keepUnseen seen l₁).map _feature_key) l₂ := by
  induction l₁ with
  | nil => intro seen; simp [keepUnseen]
  | cons f fs ih =>
    intro seen
    by_cases h : _feature_key f ∈ seen
    · simp [keepUnseen, h, ih]
    · simp [keepUnseen, h, ih, List.append_assoc]

theorem aggregateRegions_eq_keep (regions : List (List Feature)) :
    aggregateRegions regions =
      (keepUnseen [] regions.flatten, (keepUnseen [] regions.flatten).map _feature_key) := by
  suffices h : ∀ (rs : List (List Feature)) (acc : List Feature) (seen : List (Val × Val × Val)),
      rs.foldl (fun st fs => _append_unique_features st.1 st.2 fs) (acc, seen) =
        (acc ++ keepUnseen seen rs.flatten, seen ++ (keepUnseen seen rs.flatten).map _feature_key) by
    simpa [aggregateRegions] using h regions [] []
  intro rs
  induction rs with
  | nil => intro acc seen; simp [keepUnseen]
  | cons r rs ih =>
    intro acc seen
    rw [List.foldl_cons]
    show List.foldl _ (_append_unique_features acc seen r) rs = _
    rw [append_unique_eq_keep, ih]
    simp [keepUnseen_append, List.append_assoc]

theorem keepUnseen_map_key (l : List Feature) :
    ∀ seen, (keepUnseen seen l).map _feature_key = firstSeenAux seen (l.map _feature_key) := by
  induction l with
  | nil => intro seen; simp [keepUnseen, firstSeenAux]
  | cons f fs ih =>
    intro seen
    by_cases h : _feature_key f ∈ seen
    · simp [keepUnseen, firstSeenAux, h, ih]
    · simp [keepUnseen, firstSeenAux, h, ih]

theorem firstSeenAux_not_mem_seen {α : Type} [DecidableEq α] (ks : List α) :
    ∀ seen, ∀ x ∈ firstSeenAux seen ks, x ∉ seen := by
  induction ks with
  | nil => intro seen x hx; simp [firstSeenAux] at hx
  | cons k ks ih =>
    intro seen x hx
    by_cases h : k ∈ seen
    · exact ih seen x (by simpa [firstSeenAux, h] using hx)
    · simp only [firstSeenAux, h, if_false, List.mem_cons] at hx
      rcases hx with rfl | hx
      · exact h
      · intro hxs
        exact ih (seen ++ [k]) x hx (by simp [hxs])

theorem firstSeenAux_nodup {α : Type} [DecidableEq α] (ks : List α) :
    ∀ seen, (firstSeenAux seen ks).Nodup := by
  induction ks with
  | nil => intro seen; simp [firstSeenAux]
  | cons k ks ih =>
    intro seen
    by_cases h : k ∈ seen
    · simpa [firstSeenAux, h] using ih seen
    · simp only [firstSeenAux, h, if_false, List.nodup_cons]
      refine ⟨fun hk => ?_, ih (seen ++ [k])⟩
      exact firstSeenAux_not_mem_seen ks (seen ++ [k]) k hk (by simp)

theorem firstSeenAux_length {α : Type} [DecidableEq α] (ks : List α) :
    ∀ seen, (firstSeenAux seen ks).length = (ks.toFinset \ seen.toFinset).card := by
  induction ks with
  | nil => intro seen; simp [firstSeenAux]
  | cons k ks ih =>
    intro seen
    by_cases h : k ∈ seen
    · have hk : k ∈ seen.toFinset := List.mem_toFinset.mpr h
      simp [firstSeenAux, h, ih, List.toFinset_cons, Finset.insert_sdiff_of_mem _ hk]
    · have hset : ks.toFinset \ (seen ++ [k]).toFinset = (ks.toFinset \ seen.toFinset).erase k := by
        ext x
        simp only [Finset.mem_sdiff, List.mem_toFinset, List.mem_append, List.mem_singleton,
          Finset.mem_erase]
        tauto
      have hins : insert k ks.toFinset \ seen.toFinset =
          insert k (ks.toFinset \ seen.toFinset) := by
        ext x
        by_cases hxk : x = k <;>
          simp only [Finset.mem_sdiff, Finset.mem_insert, List.mem_toFinset, hxk] <;> tauto
      have hinsert : insert k (ks.toFinset \ seen.toFinset) =
          insert k ((ks.toFinset \ seen.toFinset).erase k) := by
        ext x
        by_cases hxk : x = k <;> simp [Finset.mem_insert, Finset.mem_erase, hxk]
      have hcard : (insert k ((ks.toFinset \ seen.toFinset).erase k)).card =
          ((ks.toFinset \ seen.toFinset).erase k).card + 1 :=
        Finset.card_insert_of_not_mem (Finset.not_mem_erase _ _)
      simp only [firstSeenAux, h, if_false, List.length_cons, ih, List.toFinset_cons,
        hset, hins, hinsert, hcard]

theorem keepUnseen_find? (l : List Feature) :
    ∀ (seen : List (Val × Val × Val)) (k : Val × Val × Val), k ∉ seen →
      (keepUnseen seen l).find? (fun f => _feature_key f == k) =
        l.find? (fun f => _feature_key f == k) := by
  induction l with
  | nil => intro seen k _; simp [keepUnseen]
  | cons f fs ih =>
    intro seen k hk
    by_cases h : _feature_key f ∈ seen
    · have hne : (_feature_key f == k) = false := by
        refine beq_eq_false_iff_ne.mpr fun he => ?_
        exact hk (he ▸ h)
      simp only [keepUnseen, h, if_true, List.find?_cons, hne]
      exact ih seen k hk
    · by_cases heq : _feature_key f == k
      · simp [keepUnseen, h, List.find?_cons, heq]
      · have hfk : _feature_key f ≠ k := by simpa using heq
        have hk' : k ∉ seen ++ [_feature_key f] := by
          simp only [List.mem_append, List.mem_singleton]
          rintro (hx | hx)
          · exact hk hx
          · exact hfk hx.symm
        simp only [keepUnseen, h, if_false, List.find?_cons, heq]
        simpa [heq] using ih (seen ++ [_feature_key f]) k hk'

/-- One page of a catalog response: `meta` is the response dict without its
"features" key (exactly what the dict comprehension at scrape_arcgis.py:219
extracts) and `features` is the page's feature list. -/
structure Page where
  meta : Dict
  features : List Feature
deriving DecidableEq, Repr

/-- The remote feature layer as seen by `query_features`: a pagination default
(`layer.properties.maxRecordCount`) and the query endpoint, indexed by
`result_offset` and `result_record_count`.  The `where`/field/geometry
arguments of `layer.query` are fixed for one `query_features` call and are
therefore part of the layer value here. -/
structure Layer where
  maxRecordCount : Nat
  query : Nat → Nat → Page

/-- `QueryResult` (scrape_arcgis.py:96-107). -/
structure QueryResult where
  template : Dict
  features : List Feature
deriving DecidableEq, Repr

/-- The key under which truncation is reported. -/
def etKey : String := "exceededTransferLimit"

/-- `_initial_page_size` (scrape_arcgis.py:183-187).  Python's
`getattr(..., 1000) or 1000` turns a missing or zero `maxRecordCount`
into 1000. -/
def _initial_page_size (layer : Layer) (max_records : Option Nat) : Nat :=
  let default_size := if layer.maxRecordCount = 0 then 1000 else layer.maxRecordCount
  match max_records with
  | some m => min default_size m
  | none => default_size

/-- The paging loop of `query_features` (scrape_arcgis.py:205-233), with
explicit fuel (`none` = fuel exhausted; the Python loop is unbounded). -/
def queryLoop (L : Layer) (page_size : Nat) (max_records : Option Nat) :
    Nat → Nat → List Feature → Option Dict → Option QueryResult
  | 0, _, _, _ => none
  | fuel + 1, offset, collected, tmpl =>
    let page := L.query offset page_size
    let tmpl := tmpl.getD page.meta
    let features := page.features
    let collected := collected ++ features
    if (match max_records with
        | some m => decide (collected.length ≥ m)
        | none => false) then
      some ⟨dictSet tmpl etKey (Val.bool (features.length == page_size)),
            collected.take (max_records.getD 0)⟩
    else if features.length < page_size ∨ features = [] then
      some ⟨dictSet tmpl etKey (pyGetD page.meta etKey (Val.bool false)), collected⟩
    else
      queryLoop L page_size max_records fuel (offset + page_size) collected (some tmpl)

/-- `query_features` (scrape_arcgis.py:190-236): run the paging loop from
offset 0 with the computed page size. -/
def query_features (fuel : Nat) (L : Layer) (max_records : Option Nat) : Option QueryResult :=
  queryLoop L (_initial_page_size L max_records) max_records fuel 0 [] none

/-- A catalog backed by a fixed record list `db`: a page at `offset` returns
`db[offset : offset + count]`, and the server truncation flag reports whether
records remain beyond the page. -/
def listLayer (maxRecordCount : Nat) (meta : Dict) (db : List Feature) : Layer :=
  { maxRecordCount := maxRecordCount,
    query := fun offset count =>
      { meta := dictSet meta etKey (Val.bool (decide (offset + count < db.length))),
        features := (db.drop offset).take count } }

/-- `query_features` against a list-backed catalog, with fuel sufficient for
the loop to terminate (one iteration consumes at least one record or stops). -/
def queryFeaturesList (maxRecordCount : Nat) (meta : Dict) (db : List Feature)
    (max_records : Option Nat) : QueryResult :=
  (query_features (db.length + 1) (listLayer maxRecordCount meta db) max_records).getD
    ⟨[], []⟩

theorem queryLoop_no_cap (L : Layer) (ps : Nat) (hps : 0 < ps) :
    ∀ (N : Nat), 1 ≤ N →
    ∀ (offset : Nat) (collected : List Feature) (tOpt : Option Dict),
    (∀ i, i < N - 1 → (L.query (offset + i * ps) ps).features.length = ps) →
    (L.query (offset + (N - 1) * ps) ps).features.length < ps →
    queryLoop L ps none N offset collected tOpt =
      some ⟨dictSet (tOpt.getD (L.query offset ps).meta) etKey
              (pyGetD (L.query (offset + (N - 1) * ps) ps).meta etKey (Val.bool false)),
            collected ++
              ((List.range N).map (fun i => (L.query (offset + i * ps) ps).features)).flatten⟩ := by
  intro N
  induction N with
  | zero => intro h; omega
  | succ N ih =>
    intro _ offset collected tOpt hfull hlast
    by_cases hN : N = 0
    · subst hN
      simp only [Nat.add_sub_cancel, Nat.zero_mul, Nat.add_zero] at hlast
      have hshort : (L.query offset ps).features.length < ps ∨
          (L.query offset ps).features = [] := Or.inl hlast
      rw [queryLoop]
      rw [if_neg (by simp), if_pos hshort]
      simp [List.range_succ]
    · obtain ⟨M, rfl⟩ : ∃ M, N = M + 1 := ⟨N - 1, by omega⟩
      have hfull0 : (L.query (offset + 0 * ps) ps).features.length = ps :=
        hfull 0 (by omega)
      simp only [Nat.zero_mul, Nat.add_zero] at hfull0
      have hne : ¬ ((L.query offset ps).features.length < ps ∨
          (L.query offset ps).features = []) := by
        rw [hfull0]
        rintro (h | h)
        · omega
        · rw [h] at hfull0; simp at hfull0; omega
      rw [queryLoop]
      rw [if_neg (by simp), if_neg hne]
      have hfull' : ∀ i, i < M + 1 - 1 →
          (L.query (offset + ps + i * ps) ps).features.length = ps := by
        intro i hi
        have := hfull (i + 1) (by omega)
        rwa [show offset + (i + 1) * ps = offset + ps + i * ps by ring] at this
      have hidx : offset + ps + (M + 1 - 1) * ps = offset + (M + 1 + 1 - 1) * ps := by
        simp only [Nat.add_sub_cancel]
        ring
      have hlast' : (L.query (offset + ps + (M + 1 - 1) * ps) ps).features.length < ps := by
        rw [hidx]; exact hlast
      rw [ih (by omega) (offset + ps) (collected ++ (L.query offset ps).features)
        (some (tOpt.getD (L.query offset ps).meta)) hfull' hlast']
      have hmeta : (some (tOpt.getD (L.query offset ps).meta)).getD
          (L.query (offset + ps) ps).meta = tOpt.getD (L.query offset ps).meta := rfl
      rw [hmeta, hidx]
      have hmapsh : List.map ((fun i => (L.query (offset + i * ps) ps).features) ∘ Nat.succ)
            (List.range (M + 1)) =
          List.map (fun i => (L.query (offset + ps + i * ps) ps).features)
            (List.range (M + 1)) := by
        apply List.map_congr_left
        intro i _
        simp only [Function.comp_apply]
        congr 2
        rw [Nat.succ_eq_add_one]
        ring
      have hrange : ((List.range (M + 1 + 1)).map
            (fun i => (L.query (offset + i * ps) ps).features)).flatten =
          (L.query offset ps).features ++
            ((List.range (M + 1)).map
              (fun i => (L.query (offset + ps + i * ps) ps).features)).flatten := by
        rw [List.range_succ_eq_map]
        simp only [List.map_cons, List.map_map, List.flatten_cons, Nat.zero_mul, Nat.add_zero]
        rw [hmapsh]
      rw [hrange]
      simp [List.append_assoc]

theorem queryLoop_template_frame (L : Layer) (ps : Nat) (cap : Option Nat) :
    ∀ (fuel offset : Nat) (collected : List Feature) (tOpt : Option Dict) (res : QueryResult),
      queryLoop L ps cap fuel offset collected tOpt = some res →
      (∀ k, k ≠ etKey →
        dictLookup res.template k = dictLookup (tOpt.getD (L.query offset ps).meta) k) ∧
      (dictLookup res.template etKey).isSome := by
  intro fuel
  induction fuel with
  | zero => intro offset collected tOpt res h; simp [queryLoop] at h
  | succ fuel ih =>
    intro offset collected tOpt res h
    simp only [queryLoop] at h
    split at h
    · obtain rfl : res = _ := by injection h with h'; exact h'.symm
      constructor
      · intro k hk
        exact dictLookup_dictSet_ne _ _ _ _ hk
      · simp [dictLookup_dictSet_self]
    · split at h
      · obtain rfl : res = _ := by injection h with h'; exact h'.symm
        constructor
        · intro k hk
          exact dictLookup_dictSet_ne _ _ _ _ hk
        · simp [dictLookup_dictSet_self]
      · have := ih (offset + ps) (collected ++ (L.query offset ps).features)
          (some (tOpt.getD (L.query offset ps).meta)) res h
        exact this

theorem queryLoop_listLayer_cap (mrc : Nat) (meta : Dict) (db : List Feature)
    (m : Nat) (ps : Nat) (hps : 0 < ps) :
    ∀ (fuel offset : Nat) (collected : List Feature) (tOpt : Option Dict),
      db.length + 1 ≤ fuel + offset → offset ≤ db.length →
      ∃ t, queryLoop (listLayer mrc meta db) ps (some m) fuel offset collected tOpt =
        some ⟨t, (collected ++ db.drop offset).take m⟩ := by
  intro fuel
  induction fuel with
  | zero => intro offset collected tOpt h h2; omega
  | succ fuel ih =>
    intro offset collected tOpt hfuel hoff
    rw [queryLoop]
    set feats := ((listLayer mrc meta db).query offset ps).features with hfeats
    have hfeats' : feats = (db.drop offset).take ps := rfl
    by_cases hcap : (collected ++ feats).length ≥ m
    · refine ⟨dictSet (tOpt.getD ((listLayer mrc meta db).query offset ps).meta) etKey
        (Val.bool (feats.length == ps)), ?_⟩
      rw [if_pos (by simpa using hcap)]
      have hpre : collected ++ feats <+: collected ++ db.drop offset := by
        exact ⟨db.drop offset |>.drop ps, by
          rw [hfeats', List.append_assoc, List.take_append_drop]⟩
      obtain ⟨rest, hrest⟩ := hpre
      have hlenle : m ≤ (collected ++ feats).length := by omega
      have htake : List.take m (collected ++ db.drop offset) =
          List.take m (collected ++ feats) := by
        rw [← hrest, List.take_append_of_le_length hlenle]
      simp only [Option.getD_some]
      rw [htake]
    · rw [if_neg (by simpa using hcap)]
      by_cases hshort : feats.length < ps ∨ feats = []
      · refine ⟨dictSet (tOpt.getD ((listLayer mrc meta db).query offset ps).meta) etKey
          (pyGetD ((listLayer mrc meta db).query offset ps).meta etKey (Val.bool false)), ?_⟩
        rw [if_pos hshort]
        have hall : feats = db.drop offset := by
          rw [hfeats']
          have hle : (db.drop offset).length ≤ ps := by
            rcases hshort with h | h
            · rw [hfeats'] at h
              simp only [List.length_take] at h
              omega
            · rw [hfeats'] at h
              rcases List.take_eq_nil_iff.mp h with h0 | h0 <;>
                first
                | omega
                | simp [h0]
          exact List.take_of_length_le hle
        have hlen2 : (collected ++ db.drop offset).length ≤ m := by
          rw [← hall]
          omega
        rw [hall, List.take_of_length_le hlen2]
      · rw [if_neg hshort]
        have hlen : feats.length = ps := by
          rw [hfeats']
          simp only [List.length_take]
          push_neg at hshort
          rcases Nat.lt_or_ge (db.drop offset).length ps with h2 | h2
          · exfalso
            have := hshort.1
            rw [hfeats'] at this
            simp only [List.length_take] at this
            omega
          · omega
        have hdroplen : ps ≤ (db.drop offset).length := by
          have := hlen
          rw [hfeats'] at this
          simp only [List.length_take] at this
          omega
        have hoff' : offset + ps ≤ db.length := by
          simp only [List.length_drop] at hdroplen
          omega
        have hrest : feats ++ db.drop (offset + ps) = db.drop offset := by
          rw [hfeats', ← List.drop_drop, List.take_append_drop]
        have := ih (offset + ps) (collected ++ feats)
          (some (tOpt.getD ((listLayer mrc meta db).query offset ps).meta))
          (by omega) hoff'
        obtain ⟨t, ht⟩ := this
        refine ⟨t, ?_⟩
        rw [ht]
        rw [List.append_assoc, hrest]

theorem queryFeaturesList_features (mrc : Nat) (meta : Dict) (db : List Feature)
    (m : Nat) (hm : 1 ≤ m) :
    (queryFeaturesList mrc meta db (some m)).features = db.take m := by
  have hps : 0 < _initial_page_size (listLayer mrc meta db) (some m) := by
    unfold _initial_page_size listLayer
    simp only
    split <;> omega
  obtain ⟨t, ht⟩ := queryLoop_listLayer_cap mrc meta db m
    (_initial_page_size (listLayer mrc meta db) (some m)) hps (db.length + 1) 0 [] none
    (by omega) (by omega)
  unfold queryFeaturesList query_features
  rw [ht]
  simp

/-- The state of the region-merge loop in `main`. -/
structure MainState where
  combined : List Feature
  seen : List (Val × Val × Val)
  template : Option Dict
  exceeded : Val
deriving Repr

/-- Python truthiness of a `Val` (only booleans and null reach the
`exceeded or ...` expression in practice, but the model follows Python). -/
def pyTruthy : Val → Bool
  | Val.null => false
  | Val.bool b => b
  | Val.str s => !(s == "")
  | Val.num n => !(n == 0)

/-- Python `a or b` on attribute values: the first truthy operand. -/
def pyOr (a b : Val) : Val := if pyTruthy a then a else b

/-- The region-merge loop of `main` (scrape_arcgis.py:518-559): accumulate
per-region `QueryResult`s, OR the truncation flags, deduplicate features, and
cut off at `max_records` (a falsy — absent or zero — cap is ignored, as in
`if args.max_records and ...`).  Returns the merged `QueryResult` built at
lines 556-559. -/
def mainFinish (st : MainState) : QueryResult :=
  let template := st.template.getD []
  ⟨dictSet template etKey st.exceeded, st.combined⟩

/-- One-region-at-a-time body of the merge loop (see `mainAggregate`). -/
def mainLoop (max_records : Option Nat) : List QueryResult → MainState → QueryResult
  | [], st => mainFinish st
  | r :: rs, st =>
    let template := match st.template with
      | some t => if t.isEmpty then some r.template else some t
      | none => some r.template
    let exceeded := pyOr st.exceeded (pyGetD r.template etKey (Val.bool false))
    let cs := _append_unique_features st.combined st.seen r.features
    if (match max_records with
        | some m => decide (m ≠ 0 ∧ cs.1.length ≥ m)
        | none => false) then
      mainFinish { combined := cs.1.take (max_records.getD 0), seen := cs.2,
                   template := template, exceeded := Val.bool true }
    else
      mainLoop max_records rs { combined := cs.1, seen := cs.2, template := template,
                                exceeded := exceeded }

def mainAggregate (results : List QueryResult) (max_records : Option Nat) : QueryResult :=
  mainLoop max_records results
    { combined := [], seen := [], template := none, exceeded := Val.bool false }

/-- The merge step of `_query_all_subdivisions` (scrape_arcgis.py:669-696):
concatenate the per-subdivision results (queried without a per-subquery cap),
pick the first template, OR the truncation flags, then apply the global cap —
note `max_records is not None and len(aggregated) > max_records` compares with
a strict `>` and ignores truthiness of the cap. -/
def _query_all_subdivisions_agg (subResults : List QueryResult)
    (max_records : Option Nat) : QueryResult :=
  let aggregated := (subResults.map QueryResult.features).flatten
  let template : Dict := match subResults with
    | [] => []
    | r :: _ => r.template
  let exceeded := subResults.foldl
    (fun e r => pyOr e (pyGetD r.template etKey (Val.bool false))) (Val.bool false)
  let truncate := match max_records with
    | some m => decide (aggregated.length > m)
    | none => false
  ⟨dictSet template etKey (if truncate then Val.bool true else exceeded),
   if truncate then aggregated.take (max_records.getD 0) else aggregated⟩

theorem keepUnseen_of_nodup_keys (l : List Feature) :
    ∀ seen, (l.map _feature_key).Nodup →
      (∀ k ∈ l.map _feature_key, k ∉ seen) →
      keepUnseen seen l = l := by
  induction l with
  | nil => intro seen _ _; simp [keepUnseen]
  | cons f fs ih =>
    intro seen hnd hdisj
    have hf : _feature_key f ∉ seen := hdisj _ (by simp)
    simp only [keepUnseen, hf, if_false]
    congr 1
    apply ih
    · exact (List.nodup_cons.mp hnd).2
    · intro k hk
      simp only [List.mem_append, List.mem_singleton]
      rintro (h | h)
      · exact hdisj k (by simp [hk]) h
      · exact (List.nodup_cons.mp hnd).1 (h ▸ hk)

theorem mainLoop_cap_reached (m : Nat) (hm : 1 ≤ m) :
    ∀ (results : List QueryResult) (st : MainState),
      st.combined.length < m →
      m ≤ (st.combined ++ keepUnseen st.seen (results.map QueryResult.features).flatten).length →
      (mainLoop (some m) results st).features.length = m ∧
        dictLookup (mainLoop (some m) results st).template etKey = some (Val.bool true) := by
  intro results
  induction results with
  | nil =>
    intro st hlt hge
    exfalso
    simp only [List.map_nil, List.flatten_nil, keepUnseen, List.append_nil] at hge
    omega
  | cons r rs ih =>
    intro st hlt hge
    rw [mainLoop]
    rw [append_unique_eq_keep]
    by_cases hcap : m ≤ (st.combined ++ keepUnseen st.seen r.features).length
    · rw [if_pos (by
        simp only [ne_eq, decide_eq_true_eq]
        exact ⟨by omega, hcap⟩)]
      constructor
      · simp only [mainFinish, Option.getD_some, List.length_take]
        omega
      · simp [mainFinish, dictLookup_dictSet_self]
    · rw [if_neg (by
        simp only [ne_eq, decide_eq_true_eq, not_and, not_le]
        intro _
        omega)]
      apply ih
      · show (st.combined ++ keepUnseen st.seen r.features).length < m
        omega
      · show m ≤ ((st.combined ++ keepUnseen st.seen r.features) ++
          keepUnseen (st.seen ++ (keepUnseen st.seen r.features).map _feature_key)
            (rs.map QueryResult.features).flatten).length
        simp only [List.map_cons, List.flatten_cons] at hge
        rw [keepUnseen_append] at hge
        simpa [List.append_assoc] using hge

/-- Python whitespace as used by `str.strip()` and `str.split()` (ASCII
subset: space, tab, newline, carriage return, vertical tab, form feed). -/
def isPyWs (c : Char) : Bool :=
  c = ' ' || c = Char.ofNat 9 || c = Char.ofNat 10 || c = Char.ofNat 13 ||
    c = Char.ofNat 11 || c = Char.ofNat 12

/-- Strip characters satisfying `p` from both ends (Python `str.strip`). -/
def stripEnds (p : Char → Bool) (s : List Char) : List Char :=
  ((s.dropWhile p).reverse.dropWhile p).reverse

/-- Python `str.upper()` on the ASCII fragment. -/
def pyUpper (s : List Char) : List Char := s.map Char.toUpper

/-- Python `str.lower()` on the ASCII fragment. -/
def pyLower (s : List Char) : List Char := s.map Char.toLower

/-- Python `str.replace("  ", " ")`: collapse each non-overlapping double
space into one space, scanning left to right. -/
def replaceDoubleSpace : List Char → List Char
  | ' ' :: ' ' :: rest => ' ' :: replaceDoubleSpace rest
  | c :: rest => c :: replaceDoubleSpace rest
  | [] => []

/-- Python `str.split()` with no argument: split on whitespace runs, no empty
parts. -/
def pySplitWs (s : List Char) : List (List Char) :=
  splitGo s []
where
  splitGo : List Char → List Char → List (List Char)
  | [], acc => if acc.isEmpty then [] else [acc.reverse]
  | c :: rest, acc =>
    if isPyWs c then
      if acc.isEmpty then splitGo rest [] else acc.reverse :: splitGo rest []
    else splitGo rest (c :: acc)

/-- Python `str.title()` on the ASCII fragment: upper-case a letter that
follows a non-letter, lower-case a letter that follows a letter. -/
def pyTitle (s : List Char) : List Char :=
  titleGo s false
where
  titleGo : List Char → Bool → List Char
  | [], _ => []
  | c :: rest, prevAlpha =>
    if c.isAlpha then
      (if prevAlpha then c.toLower else c.toUpper) :: titleGo rest true
    else c :: titleGo rest false

/-- `BUSINESS_KEYWORDS` (scrape_arcgis.py:50-86), verbatim. -/
def BUSINESS_KEYWORDS : List (List Char) :=
  [" LLC", " L.L.C", " LLP", " L.L.P", " INC", " CO ", " COMPANY",
   " CORPORATION", " CORP", " LP", " L.P", " LLLP", " PLLC", " PC",
   " TRUST", " TR ", " FOUNDATION", " ASSOCIATES", " HOLDINGS",
   " ENTERPRISE", " ENTERPRISES", " PROPERTIES", " PROPERTY", " GROUP",
   " INVEST", " PARTNERSHIP", " PARTNERS", " LIVING TRUST", " REVOCABLE",
   " FAMILY", " MANAGEMENT", " FUND", " ESTATE", " LLC.", " LLC,"].map
    String.toList

/-- `SUFFIX_TOKENS` (scrape_arcgis.py:88). -/
def SUFFIX_TOKENS : List (List Char) :=
  ["JR", "SR", "II", "III", "IV", "V"].map String.toList

/-- The result record of `_split_owner_name`:
(first, middle, last, suffix, title, company). -/
structure SplitName where
  first : List Char
  middle : List Char
  last : List Char
  suffix : List Char
  title : List Char
  company : List Char
deriving DecidableEq, Repr

/-- Join a list of words with single spaces (Python `" ".join`). -/
def joinSpace : List (List Char) → List Char
  | [] => []
  | [w] => w
  | w :: ws => w ++ ' ' :: joinSpace ws

/-- The cleaned input of `_split_owner_name`: strip whitespace, strip commas,
then collapse double spaces (scrape_arcgis.py:1531,1535). -/
def splitNameClean (raw : List Char) : List Char :=
  replaceDoubleSpace (stripEnds (fun c => c = ',') (stripEnds isPyWs raw))

/-- Python `pat in s` on strings: contiguous substring containment. -/
def containsSub (s pat : List Char) : Bool :=
  match s with
  | [] => pat.isEmpty
  | _ :: rest => pat.isPrefixOf s || containsSub rest pat

/-- Whether the upper-cased cleaned name contains a business keyword as a
plain substring (`any(keyword in upper for keyword in BUSINESS_KEYWORDS)`,
scrape_arcgis.py:1537). -/
def businessMatch (upper : List Char) : Bool :=
  BUSINESS_KEYWORDS.any (fun kw => containsSub upper kw)

/-- `_split_owner_name` (scrape_arcgis.py:1530-1564). -/
def _split_owner_name (raw : List Char) : SplitName :=
  let clean0 := stripEnds (fun c => c = ',') (stripEnds isPyWs raw)
  if clean0.isEmpty then ⟨[], [], [], [], [], []⟩
  else
    let clean := replaceDoubleSpace clean0
    let upper := pyUpper clean
    if businessMatch upper then ⟨[], [], [], [], [], clean⟩
    else
      let tokens := pySplitWs (clean.filter (fun c => c ≠ '.'))
      match tokens.getLast? with
      | none => ⟨[], [], [], [], [], []⟩
      | some lastTok =>
        let hasSuffix := SUFFIX_TOKENS.contains (pyUpper lastTok)
        let suffix := if hasSuffix then lastTok else []
        let tokens := if hasSuffix then tokens.dropLast else tokens
        match tokens with
        | [] => ⟨[], [], [], suffix, [], []⟩
        | [t] => ⟨[], [], pyTitle t, suffix, [], []⟩
        | t0 :: t1 :: rest =>
          let first_middle := (t0 :: t1 :: rest).dropLast
          let lastW := pyTitle ((t0 :: t1 :: rest).getLast (by simp))
          if first_middle.any (fun tok => pyUpper tok = "&".toList ∨ pyUpper tok = "AND".toList) then
            ⟨joinSpace (first_middle.map pyTitle), [], lastW, suffix, [], []⟩
          else
            ⟨pyTitle t0, joinSpace ((t1 :: rest).dropLast.map pyTitle), lastW, suffix, [], []⟩

/-- Zero-padded decimal rendering of `m` with exactly `w` digits (valid for
`m < 10 ^ w`), most significant digit first. -/
def padDecimal : Nat → Nat → List Char
  | 0, _ => []
  | w + 1, m => Nat.digitChar (m / 10 ^ w) :: padDecimal w (m % 10 ^ w)

/-- Python `f"{float(v):012.4f}"` for a non-negative integer `v`: integer part
zero-padded to 7 digits (total width 12 with the ".0000" tail), or unpadded
when the value needs more than 7 digits.  Exact for `v < 2 ^ 53`, where float
conversion is lossless. -/
def fmtFloat0124 (m : Nat) : List Char :=
  (if m < 10 ^ 7 then padDecimal 7 m else Nat.toDigits 10 m) ++ ".0000".toList

/-- Python `float(unit)` on the modelled fragment: non-empty strings of ASCII
digits (the unit labels the claims quantify over).  Other strings raise
`ValueError` and take the non-numeric branch. -/
def digitsToNat (s : List Char) : Nat :=
  s.foldl (fun n c => 10 * n + (c.toNat - 48)) 0

def parseFloatDigits (s : List Char) : Option Nat :=
  if s ≠ [] ∧ s.all Char.isDigit then some (digitsToNat s) else none

/-- `_unit_sort_key` (scrape_arcgis.py:1567-1574). -/
def _unit_sort_key (unit : List Char) : Nat × List Char :=
  if unit.isEmpty then (1, [])
  else
    match parseFloatDigits unit with
    | none => (0, pyLower unit)
    | some v => (0, fmtFloat0124 v)

/-- Code-point lexicographic strict order on strings (Python `str` `<`). -/
def lexLt : List Char → List Char → Bool
  | [], [] => false
  | [], _ :: _ => true
  | _ :: _, [] => false
  | a :: as, b :: bs => if a < b then true else if b < a then false else lexLt as bs

/-- Strict order on `_unit_sort_key` values (Python tuple `<` on
`(int, str)`). -/
def unitKeyLt (a b : Nat × List Char) : Bool :=
  a.1 < b.1 || (a.1 == b.1 && lexLt a.2 b.2)

/-- One owner-table row, restricted to the columns read by the sort key,
`_owner_key` and the registry/link logic; the remaining output columns are
carried strings the verified functions never inspect. -/
structure Row where
  complx : List Char
  unit : List Char
  firstName : List Char
  middle : List Char
  lastName : List Char
  suffix : List Char
  company : List Char
  schedule : List Char
deriving DecidableEq, Repr

/-- The sort key of `rows.sort(key=lambda row: (row["Complex"].lower(),
_unit_sort_key(row["Unit"])))` (scrape_arcgis.py:947). -/
def rowSortKey (r : Row) : List Char × Nat × List Char :=
  (pyLower r.complx, _unit_sort_key r.unit)

/-- Strict order on full row sort keys (Python tuple `<`). -/
def rowKeyLt (a b : List Char × Nat × List Char) : Bool :=
  lexLt a.1 b.1 || (a.1 == b.1 && unitKeyLt a.2 b.2)

/-- Insert into a sorted list, after every element not strictly greater —
the unique stable position. -/
def insertStable {α : Type} (lt : α → α → Bool) (x : α) : List α → List α
  | [] => [x]
  | y :: ys => if lt y x then y :: insertStable lt x ys else x :: y :: ys

/-- The final sort of `_format_owner_table` (scrape_arcgis.py:947).  Python
`list.sort` is a stable sort by the key's strict order; any stable sort
produces the same list, so it is modelled by stable insertion sort. -/
def sortOwnerRows (rows : List Row) : List Row :=
  rows.foldr (insertStable (fun r s => rowKeyLt (rowSortKey r) (rowSortKey s))) []

/-- The owner identity key of `_owner_key` (scrape_arcgis.py:1153-1162):
upper-cased stripped (company, first, middle, last, suffix). -/
abbrev OwnerKey := List Char × List Char × List Char × List Char × List Char

/-- `_owner_key` (scrape_arcgis.py:1153-1162). -/
def _owner_key (r : Row) : OwnerKey :=
  (pyUpper (stripEnds isPyWs r.company),
   pyUpper (stripEnds isPyWs r.firstName),
   pyUpper (stripEnds isPyWs r.middle),
   pyUpper (stripEnds isPyWs r.lastName),
   pyUpper (stripEnds isPyWs r.suffix))

/-- One property reference attached to an owner record
(scrape_arcgis.py:1044-1051). -/
structure PropRef where
  rowIndex : Nat
  complx : List Char
  unit : List Char
  schedule : List Char
deriving DecidableEq, Repr

/-- One deduplicated owner record.  The Python dict-valued entry also copies
name and address columns from the first row; only the id, the identity key
(the lookup-dict key) and the property list are read by the logic under
verification. -/
structure OwnerRec where
  ownerId : List Char
  key : OwnerKey
  properties : List PropRef
deriving DecidableEq, Repr

/-- `f"OWN{n:04d}"`: "OWN" plus `n` zero-padded to at least 4 digits. -/
def ownerIdFor (n : Nat) : List Char :=
  "OWN".toList ++ List.replicate (4 - (Nat.toDigits 10 n).length) '0' ++ Nat.toDigits 10 n

/-- The loop of `_build_owner_registry` (scrape_arcgis.py:1019-1052).  The
Python `lookup` dict keyed by `_owner_key` holds a shared reference to the
owner entry; appending to that entry is modelled by updating the (unique)
record with the matching key in the owners list. -/
def _build_owner_registry_go : List Row → Nat → List OwnerRec → List OwnerRec
  | [], _, owners => owners
  | r :: rs, idx, owners =>
    let k := _owner_key r
    let ref : PropRef := ⟨idx, r.complx, r.unit, r.schedule⟩
    if owners.any (fun o => o.key == k) then
      _build_owner_registry_go rs (idx + 1)
        (owners.map (fun o =>
          if o.key == k then { o with properties := o.properties ++ [ref] } else o))
    else
      _build_owner_registry_go rs (idx + 1)
        (owners ++ [⟨ownerIdFor (owners.length + 1), k, [ref]⟩])

/-- `_build_owner_registry` (scrape_arcgis.py:1012-1058), restricted to the
owner list (the `property_to_owner` index maps each row index to the record
its reference was appended to). -/
def _build_owner_registry (rows : List Row) : List OwnerRec :=
  _build_owner_registry_go rows 0 []

/-- The `current_row` walk of `_apply_hyperlink_urls`
(scrape_arcgis.py:1069-1098): starting sheet rows, one per owner. -/
def ownerStartRows : List OwnerRec → Nat → List Nat
  | [], _ => []
  | o :: os, cur => cur :: ownerStartRows os (cur + o.properties.length)

/-- The per-owner `excel_row` values assigned by `_apply_hyperlink_urls`
(scrape_arcgis.py:1061-1098): consecutive starting rows from row 2, each owner
consuming one row per linked property. -/
def _apply_hyperlink_urls (owners : List OwnerRec) : List Nat :=
  ownerStartRows owners 2

/-- `_excel_escape` (scrape_arcgis.py:1433-1434): double every double
quote. -/
def _excel_escape : List Char → List Char
  | [] => []
  | c :: rest => if c = dq then dq :: dq :: _excel_escape rest
                 else c :: _excel_escape rest

/-- `label.replace('\x22\x22', '\x22')` as used at scrape_arcgis.py:1407:
collapse doubled quotes left to right. -/
def unescapeQuotes : List Char → List Char
  | [] => []
  | [c] => [c]
  | c :: c2 :: rest =>
    if c = dq ∧ c2 = dq then dq :: unescapeQuotes rest
    else c :: unescapeQuotes (c2 :: rest)

/-- The fixed URL prefix of the hyperlink formulas. -/
def urlHead : List Char := "https://docs.google.com/spreadsheets/d/".toList

/-- Literal head of a hyperlink formula: the text before the document id. -/
def hlHead : List Char := "=HYPERLINK(".toList ++ [dq] ++ urlHead

/-- Literal between document id and gid. -/
def editGidLit : List Char := "/edit#gid=".toList

/-- Literal between gid and cell range. -/
def rangeLit : List Char := "&range=".toList

/-- `_build_hyperlink_formula` (scrape_arcgis.py:1417-1422). -/
def _build_hyperlink_formula (doc_id gid cell_range label : List Char) : List Char :=
  hlHead ++ doc_id ++ editGidLit ++ gid ++ rangeLit ++ cell_range ++ [dq] ++
    ", ".toList ++ [dq] ++ _excel_escape (if label.isEmpty then cell_range else label) ++
    [dq, ')']

/-- Consume a literal prefix, or fail (one regex literal chunk). -/
def dropLit (lit s : List Char) : Option (List Char) :=
  if lit.isPrefixOf s then some (s.drop lit.length) else none

/-- Consume a non-empty maximal run of characters satisfying `p`
(a regex `[...]+` atom; the following literal is never in the class, so the
greedy match is deterministic). -/
def takeRun (p : Char → Bool) (s : List Char) : Option (List Char × List Char) :=
  let run := s.takeWhile p
  if run.isEmpty then none else some (run, s.dropWhile p)

/-- Regex `[A-Z]`. -/
def isUpperAZ (c : Char) : Bool := 'A' ≤ c && c ≤ 'Z'

/-- Match the label group `((?:\x22\x22|[^\x22])*)` of `HYPERLINK_RE`
followed by its closing `\x22)` terminator, greedily with backtracking (the
group can only stop immediately before a quote).  Returns the raw (escaped)
label text and the input after the terminator; `re.match` allows trailing
input. -/
def labelMatch : List Char → Option (List Char × List Char)
  | [] => none
  | c :: rest =>
    if c = dq then
      match rest with
      | c2 :: rest2 =>
        if c2 = dq then
          match labelMatch rest2 with
          | some (l, r) => some (dq :: dq :: l, r)
          | none => none
        else if c2 = ')' then some ([], rest2)
        else none
      | [] => none
    else
      match labelMatch rest with
      | some (l, r) => some (c :: l, r)
      | none => none

/-- `HYPERLINK_RE.match` (scrape_arcgis.py:1396-1398) together with the label
unescaping of `_extract_range_and_label`: on success, the target cell range
and the unescaped label.  Each regex atom is deterministic (see the atom
helpers), so the parse follows the regex left to right. -/
def matchHyperlink (s : List Char) : Option (List Char × List Char) := do
  let s1 ← dropLit hlHead s
  let (_, s2) ← takeRun (fun c => c ≠ '/') s1
  let s3 ← dropLit editGidLit s2
  let (_, s4) ← takeRun Char.isDigit s3
  let s5 ← dropLit rangeLit s4
  let (letters, s6) ← takeRun isUpperAZ s5
  let (digits, s7) ← takeRun Char.isDigit s6
  let s8 ← dropLit [dq] s7
  let s9 := s8.dropWhile isPyWs
  let s10 ← dropLit [','] s9
  let s11 := s10.dropWhile isPyWs
  let s12 ← dropLit [dq] s11
  let (esc, _) ← labelMatch s12
  pure (letters ++ digits, unescapeQuotes esc)

/-- Match `CELL_REF_RE` (scrape_arcgis.py:1399) at the start of the input:
a quoted sheet name, `!`, and a cell reference; returns the captured range. -/
def cellRefAt (s : List Char) : Option (List Char) := do
  let s1 ← dropLit [apos] s
  let (_, s2) ← takeRun (fun c => c ≠ apos) s1
  let s3 ← dropLit [apos, '!'] s2
  let (letters, s4) ← takeRun isUpperAZ s3
  let (digits, _) ← takeRun Char.isDigit s4
  pure (letters ++ digits)

/-- `CELL_REF_RE.search`: first position where `cellRefAt` matches. -/
def cellRefSearch : List Char → Option (List Char)
  | [] => none
  | c :: rest =>
    match cellRefAt (c :: rest) with
    | some r => some r
    | none => cellRefSearch rest

/-- `_extract_range_and_label` (scrape_arcgis.py:1402-1414). -/
def _extract_range_and_label (value : List Char) (default_label : List Char) :
    Option (List Char) × List Char :=
  let v := stripEnds isPyWs value
  match matchHyperlink v with
  | some (cell_range, label) => (some cell_range, label)
  | none =>
    match cellRefSearch v with
    | some cell_range => (some cell_range, default_label)
    | none => (none, default_label)

/-- One link-cell update of the rewrite loops (scrape_arcgis.py:1363-1372 and
1374-1390): blank or match-free cells are left untouched, otherwise the cell
is replaced by a formula against the new identity. -/
def rewriteCell (doc_id gid default_label value : List Char) : List Char :=
  if (stripEnds isPyWs value).isEmpty then value
  else
    match _extract_range_and_label value default_label with
    | (none, _) => value
    | (some cell_range, label) => _build_hyperlink_formula doc_id gid cell_range label

/-- One row of the "By Complex" sheet, restricted to the columns the rewrite
reads: the `Owner Link` cell and the `Owner ID` cell. -/
structure ComplexSheetRow where
  ownerLink : List Char
  ownerId : List Char
deriving DecidableEq, Repr

/-- One row of the "By Owner" sheet, restricted to the columns the rewrite
reads. -/
structure OwnerSheetRow where
  complexLink : List Char
  propComplex : List Char
  propUnit : List Char
  schedule : List Char
deriving DecidableEq, Repr

/-- The two data sheets of an exported workbook (each modelled by the cells
the rewrite touches; the sheets and headers are required to exist). -/
structure Workbook where
  complexRows : List ComplexSheetRow
  ownerRows : List OwnerSheetRow
deriving DecidableEq, Repr

/-- Default label for a "By Owner" row (scrape_arcgis.py:1379-1386):
complex, then unit if present, then schedule if present and no unit,
joined by spaces and stripped. -/
def ownerSheetDefaultLabel (r : OwnerSheetRow) : List Char :=
  let parts := [r.propComplex] ++ (if r.propUnit.isEmpty then [] else [r.propUnit]) ++
    (if r.schedule.isEmpty || !r.propUnit.isEmpty then [] else [r.schedule])
  stripEnds isPyWs (joinSpace (parts.filter (fun p => !p.isEmpty)))

/-- `_rewrite_workbook_links` (scrape_arcgis.py:1333-1393), restricted to the
hyperlink formula text it rewrites: `Owner Link` cells are rebuilt against the
owner gid with the `Owner ID` cell as fallback label, `Complex Sheet Link`
cells against the complex gid with the property label as fallback. -/
def _rewrite_workbook_links (doc_id complex_gid owner_gid : List Char) (wb : Workbook) :
    Workbook :=
  { complexRows := wb.complexRows.map (fun r =>
      { r with ownerLink := rewriteCell doc_id owner_gid r.ownerId r.ownerLink }),
    ownerRows := wb.ownerRows.map (fun r =>
      { r with complexLink :=
          rewriteCell doc_id complex_gid (ownerSheetDefaultLabel r) r.complexLink }) }

theorem filter_key_eq_find_of_nodup (k : Val × Val × Val) :
    ∀ l : List Feature, (l.map _feature_key).Nodup →
      l.filter (fun f => _feature_key f == k) =
        (l.find? (fun f => _feature_key f == k)).toList := by
  intro l
  induction l with
  | nil => intro _; simp
  | cons f fs ih =>
    intro hnd
    by_cases h : _feature_key f == k
    · have hkf : _feature_key f = k := by simpa using h
      have hnotin : ∀ g ∈ fs, ¬ (_feature_key g == k) = true := by
        intro g hg hgk
        have : _feature_key g = _feature_key f := by
          rw [hkf]; simpa using hgk
        exact (List.nodup_cons.mp hnd).1 (this ▸ List.mem_map_of_mem _feature_key hg)
      have hfil : fs.filter (fun f => _feature_key f == k) = [] :=
        List.filter_eq_nil_iff.mpr hnotin
      simp [List.filter_cons, List.find?_cons, h, hfil]
    · simp only [List.filter_cons, List.find?_cons, h, Bool.false_eq_true, if_false]
      exact ih (List.nodup_cons.mp hnd).2

/-- Claim C2: merging any sequence of regions keeps exactly one feature per
distinct identity key — the merged count is the cardinality of the set union
of identity keys (not the sum of the region counts), the merged key sequence
lists each distinct key once in first-seen order, and for every key the kept
feature is the first feature with that key in sequential region order. -/
theorem claim_C2_dedup_union (regions : List (List Feature)) :
    (aggregateRegions regions).1.length =
        (regions.flatten.map _feature_key).toFinset.card ∧
      (aggregateRegions regions).1.map _feature_key =
        firstSeenAux [] (regions.flatten.map _feature_key) ∧
      ((aggregateRegions regions).1.map _feature_key).Nodup ∧
      ∀ k, (aggregateRegions regions).1.find? (fun f => _feature_key f == k) =
        regions.flatten.find? (fun f => _feature_key f == k) := by
  rw [aggregateRegions_eq_keep]
  refine ⟨?_, ?_, ?_, ?_⟩
  · have h1 : (keepUnseen [] regions.flatten).length =
        ((keepUnseen [] regions.flatten).map _feature_key).length := by
      simp
    rw [h1, keepUnseen_map_key, firstSeenAux_length]
    simp
  · exact keepUnseen_map_key _ _
  · rw [keepUnseen_map_key]
    exact firstSeenAux_nodup _ _
  · intro k
    exact keepUnseen_find? _ _ k (by simp)

/-- Claim C10: a feature receives the null identity key exactly when all three
identity attributes are absent (or null), and across a whole multi-region run
only the first such feature is kept: the merged result's sublist of
null-keyed features is exactly the first null-keyed feature of the
concatenated region stream (every later one is silently dropped). -/
theorem claim_C10_null_key_collision (regions : List (List Feature)) :
    (∀ f : Feature, (_feature_key f == nullFeatureKey) =
        ((attrGet f.attributes "PropertyScheduleText" == Val.null) &&
         (attrGet f.attributes "HC_RegistrationsOriginalCleaned" == Val.null) &&
         (attrGet f.attributes "OBJECTID" == Val.null))) ∧
      (aggregateRegions regions).1.filter (fun f => _feature_key f == nullFeatureKey) =
        (regions.flatten.find? (fun f => _feature_key f == nullFeatureKey)).toList := by
  constructor
  · intro f
    have : (_feature_key f == nullFeatureKey) = true ↔
        ((attrGet f.attributes "PropertyScheduleText" == Val.null) &&
         (attrGet f.attributes "HC_RegistrationsOriginalCleaned" == Val.null) &&
         (attrGet f.attributes "OBJECTID" == Val.null)) = true := by
      simp only [beq_iff_eq, Bool.and_eq_true, _feature_key, nullFeatureKey,
        Prod.mk.injEq]
      tauto
    exact Bool.coe_iff_coe.mp this
  · have hnd : ((aggregateRegions regions).1.map _feature_key).Nodup := by
      rw [aggregateRegions_eq_keep, keepUnseen_map_key]
      exact firstSeenAux_nodup _ _
    rw [filter_key_eq_find_of_nodup _ _ hnd, aggregateRegions_eq_keep]
    rw [keepUnseen_find? _ _ nullFeatureKey (by simp)]

/-- Claim C1: against a catalog that returns exactly `page_size` features on
each of the first N-1 pages and fewer than `page_size` (possibly zero) on
page N, `query_features` without a record cap returns all
`N * page_size - k` features (k = the last page's shortfall) in page order,
and the result's `exceededTransferLimit` flag is false whenever the server's
own flag on the final page is false (or absent). -/
theorem claim_C1_pagination_complete (L : Layer) (N : Nat) (hN : 1 ≤ N)
    (ps : Nat) (hps : ps = _initial_page_size L none)
    (hfull : ∀ i, i < N - 1 → (L.query (i * ps) ps).features.length = ps)
    (hlast : (L.query ((N - 1) * ps) ps).features.length < ps)
    (hflag : pyGetD (L.query ((N - 1) * ps) ps).meta etKey (Val.bool false) =
      Val.bool false) :
    (query_features N L none).map QueryResult.features =
        some (((List.range N).map (fun i => (L.query (i * ps) ps).features)).flatten) ∧
      (query_features N L none).map (fun r => r.features.length) =
        some (N * ps - (ps - (L.query ((N - 1) * ps) ps).features.length)) ∧
      (query_features N L none).map (fun r => dictLookup r.template etKey) =
        some (some (Val.bool false)) := by
  have hps0 : 0 < ps := by
    rw [hps]
    unfold _initial_page_size
    simp only
    split <;> omega
  obtain ⟨M, rfl⟩ : ∃ M, N = M + 1 := ⟨N - 1, by omega⟩
  simp only [Nat.add_sub_cancel] at hfull hlast hflag ⊢
  have hloop := queryLoop_no_cap L ps hps0 (M + 1) (by omega) 0 [] none
    (by intro i hi
        simp only [Nat.add_sub_cancel] at hi
        simpa using hfull i hi)
    (by simpa using hlast)
  have hq : query_features (M + 1) L none =
      some ⟨dictSet (L.query 0 ps).meta etKey
              (pyGetD (L.query (M * ps) ps).meta etKey (Val.bool false)),
            ((List.range (M + 1)).map (fun i => (L.query (i * ps) ps).features)).flatten⟩ := by
    rw [query_features, ← hps]
    rw [hloop]
    simp [Nat.add_sub_cancel]
  rw [hq]
  have hlen : (((List.range (M + 1)).map
      (fun i => (L.query (i * ps) ps).features)).flatten).length =
      M * ps + (L.query (M * ps) ps).features.length := by
    rw [List.length_flatten]
    rw [List.range_succ, List.map_append, List.map_append, List.sum_append]
    have hconst : (List.range M).map
        (fun i => ((L.query (i * ps) ps).features).length) = List.replicate M ps := by
      rw [List.eq_replicate_iff]
      refine ⟨by simp, ?_⟩
      intro x hx
      simp only [List.mem_map, List.mem_range] at hx
      obtain ⟨i, hi, rfl⟩ := hx
      exact hfull i (by omega)
    rw [List.map_map]
    simp only [Function.comp_def]
    rw [hconst]
    simp [List.sum_replicate]
  refine ⟨by simp, ?_, ?_⟩
  · simp only [Option.map_some', Option.some.injEq]
    rw [hlen]
    have hring : (M + 1) * ps = M * ps + ps := by ring
    omega
  · simp only [Option.map_some', Option.some.injEq]
    rw [hflag]
    exact dictLookup_dictSet_self _ _ _

/-- A concrete two-page catalog: page one is full (2 features, server flag
true), page two is short (1 feature, server flag false). -/
def pageC1a : Page :=
  { meta := [("spatialReference", Val.str "wgs84"), (etKey, Val.bool true)],
    features := [⟨[("OBJECTID", Val.num 1)], []⟩, ⟨[("OBJECTID", Val.num 2)], []⟩] }

/-- Second, short page of the concrete catalog. -/
def pageC1b : Page :=
  { meta := [("spatialReference", Val.str "wgs84"), (etKey, Val.bool false)],
    features := [⟨[("OBJECTID", Val.num 3)], []⟩] }

/-- Concrete layer serving `pageC1a` at offset 0 and `pageC1b` afterwards. -/
def layerC1 : Layer :=
  { maxRecordCount := 2, query := fun offset _ => if offset = 0 then pageC1a else pageC1b }

/-- Witness for C1: the two-page catalog yields all 3 = 2*2 - 1 features in
page order with a false truncation flag. -/
theorem claim_C1_pagination_complete_witness :
    (query_features 2 layerC1 none).map QueryResult.features =
        some (((List.range 2).map (fun i => (layerC1.query (i * 2) 2).features)).flatten) ∧
      (query_features 2 layerC1 none).map (fun r => r.features.length) =
        some (2 * 2 - (2 - (layerC1.query ((2 - 1) * 2) 2).features.length)) ∧
      (query_features 2 layerC1 none).map (fun r => dictLookup r.template etKey) =
        some (some (Val.bool false)) :=
  claim_C1_pagination_complete layerC1 2 (by decide) 2 (by decide)
    (by decide) (by decide) (by decide)

/-- Claim C9 (amended): for every query that returns a result, every key/value
pair of the first page's payload other than `exceededTransferLimit` appears
unmodified in the result's template, and the template always carries an
`exceededTransferLimit` entry (the computed truncation flag, which may differ
from the first page's own value). -/
theorem claim_C9_template_frame (fuel : Nat) (L : Layer) (cap : Option Nat)
    (res : QueryResult) (h : query_features fuel L cap = some res) :
    (∀ k, k ≠ etKey → dictLookup res.template k =
      dictLookup (L.query 0 (_initial_page_size L cap)).meta k) ∧
    (dictLookup res.template etKey).isSome :=
  queryLoop_template_frame L _ cap fuel 0 [] none res h

/-- The concrete result of querying the two-page catalog. -/
def resC9 : QueryResult := (query_features 2 layerC1 none).getD ⟨[], []⟩

/-- Witness for C9 (amended) at the two-page catalog: the spatial reference of
the first page is carried through unchanged and the truncation key is set. -/
theorem claim_C9_template_frame_witness :
    (dictLookup resC9.template "spatialReference" =
      dictLookup (layerC1.query 0 (_initial_page_size layerC1 none)).meta
        "spatialReference") ∧
    (dictLookup resC9.template etKey).isSome :=
  ⟨(claim_C9_template_frame 2 layerC1 none resC9 (by decide)).1 "spatialReference"
      (by decide),
   (claim_C9_template_frame 2 layerC1 none resC9 (by decide)).2⟩

/-- Counterexample to C9 as stated: in a multi-page query whose first page
carries `exceededTransferLimit = true` and whose final short page carries
`false`, the first page's `exceededTransferLimit` pair is overwritten in the
result template, so not every non-feature pair of the first page survives
unmodified. -/
theorem claim_C9_counterexample :
    dictLookup (layerC1.query 0 2).meta etKey = some (Val.bool true) ∧
      (query_features 2 layerC1 none).map (fun r => dictLookup r.template etKey) =
        some (some (Val.bool false)) := by
  decide

theorem keepUnseen_nil_length (l : List Feature) :
    (keepUnseen [] l).length = (l.map _feature_key).toFinset.card := by
  have h1 : (keepUnseen [] l).length = ((keepUnseen [] l).map _feature_key).length := by
    simp
  rw [h1, keepUnseen_map_key, firstSeenAux_length]
  simp

/-- Claim C3 (amended): with a global cap `m ≥ 1` and distinct available
features carrying pairwise distinct identity keys, if the number of available
deduplicated features exceeds `m` then the merged result has exactly `m`
features and its truncation flag is true — in per-region mode (each region
queried with the cap, then merged and cut in `main`) and in per-subdivision
mode (sub-results concatenated and cut in `_query_all_subdivisions`, then
merged in `main`).  Without the distinct-keys assumption the code can return
fewer than `m` features (see the counterexample). -/
theorem claim_C3_cap_truncation_amended :
    (∀ (mrc : Nat) (meta : Dict) (dbs : List (List Feature)) (m : Nat), 1 ≤ m →
      (∀ db ∈ dbs, db.Nodup) →
      (∀ f ∈ dbs.flatten, ∀ g ∈ dbs.flatten, _feature_key f = _feature_key g → f = g) →
      m < (dbs.flatten.map _feature_key).toFinset.card →
      (mainAggregate (dbs.map (fun db => queryFeaturesList mrc meta db (some m)))
          (some m)).features.length = m ∧
        dictLookup (mainAggregate (dbs.map (fun db => queryFeaturesList mrc meta db (some m)))
          (some m)).template etKey = some (Val.bool true)) ∧
    (∀ (subResults : List QueryResult) (m : Nat), 1 ≤ m →
      ((subResults.map QueryResult.features).flatten).Nodup →
      (∀ f ∈ (subResults.map QueryResult.features).flatten,
        ∀ g ∈ (subResults.map QueryResult.features).flatten,
          _feature_key f = _feature_key g → f = g) →
      m < (((subResults.map QueryResult.features).flatten).map _feature_key).toFinset.card →
      (mainAggregate [_query_all_subdivisions_agg subResults (some m)]
          (some m)).features.length = m ∧
        dictLookup (mainAggregate [_query_all_subdivisions_agg subResults (some m)]
          (some m)).template etKey = some (Val.bool true)) := by
  constructor
  · intro mrc meta dbs m hm hnd hinj hcard
    have hfeat : (dbs.map (fun db => queryFeaturesList mrc meta db (some m))).map
        QueryResult.features = dbs.map (fun db => db.take m) := by
      rw [List.map_map]
      apply List.map_congr_left
      intro db _
      exact queryFeaturesList_features mrc meta db m hm
    have hreach : m ≤ (keepUnseen []
        (((dbs.map (fun db => queryFeaturesList mrc meta db (some m))).map
          QueryResult.features).flatten)).length := by
      rw [hfeat, keepUnseen_nil_length]
      by_cases hbig : ∃ db ∈ dbs, m ≤ db.length
      · obtain ⟨db, hdb, hdblen⟩ := hbig
        have hsubl : ((db.take m).map _feature_key).toFinset ⊆
            (((dbs.map (fun db => db.take m)).flatten).map _feature_key).toFinset := by
          intro k hk
          simp only [List.mem_toFinset, List.mem_map] at hk ⊢
          obtain ⟨x, hx, rfl⟩ := hk
          exact ⟨x, List.mem_flatten.mpr ⟨db.take m,
            List.mem_map.mpr ⟨db, hdb, rfl⟩, hx⟩, rfl⟩
        have htnd : ((db.take m).map _feature_key).Nodup := by
          apply List.Nodup.map_on
          · intro x hx y hy hxy
            have hxdb : x ∈ dbs.flatten :=
              List.mem_flatten.mpr ⟨db, hdb, List.mem_of_mem_take hx⟩
            have hydb : y ∈ dbs.flatten :=
              List.mem_flatten.mpr ⟨db, hdb, List.mem_of_mem_take hy⟩
            exact hinj x hxdb y hydb hxy
          · exact (List.take_sublist m db).nodup (hnd db hdb)
        have hcards : (((db.take m).map _feature_key).toFinset).card = m := by
          rw [List.toFinset_card_of_nodup htnd]
          simp only [List.length_map, List.length_take]
          omega
        calc m = (((db.take m).map _feature_key).toFinset).card := hcards.symm
          _ ≤ _ := Finset.card_le_card hsubl
      · push_neg at hbig
        have htakes : dbs.map (fun db => db.take m) = dbs := by
          conv_rhs => rw [← List.map_id dbs]
          apply List.map_congr_left
          intro db hdb
          exact List.take_of_length_le (le_of_lt (hbig db hdb))
        rw [htakes]
        omega
    exact mainLoop_cap_reached m hm
      (dbs.map (fun db => queryFeaturesList mrc meta db (some m)))
      { combined := [], seen := [], template := none, exceeded := Val.bool false }
      (by simp; omega) (by simpa using hreach)
  · intro subResults m hm hnd hinj hcard
    have hlen : m < ((subResults.map QueryResult.features).flatten).length := by
      calc m < (((subResults.map QueryResult.features).flatten).map
            _feature_key).toFinset.card := hcard
        _ ≤ (((subResults.map QueryResult.features).flatten).map _feature_key).length :=
            List.toFinset_card_le _
        _ = ((subResults.map QueryResult.features).flatten).length := by
            rw [List.length_map]
    have hagg : (_query_all_subdivisions_agg subResults (some m)).features =
        ((subResults.map QueryResult.features).flatten).take m := by
      unfold _query_all_subdivisions_agg
      simp only [Option.getD_some]
      rw [if_pos (by simpa using hlen)]
    have hknd : ((((subResults.map QueryResult.features).flatten).take m).map
        _feature_key).Nodup := by
      have hjnd : (((subResults.map QueryResult.features).flatten).map
          _feature_key).Nodup := by
        apply List.Nodup.map_on
        · intro x hx y hy hxy
          exact hinj x hx y hy hxy
        · exact hnd
      rw [List.map_take]
      exact (List.take_sublist _ _).nodup hjnd
    have hkeep : keepUnseen [] (((subResults.map QueryResult.features).flatten).take m) =
        ((subResults.map QueryResult.features).flatten).take m :=
      keepUnseen_of_nodup_keys _ [] hknd (by intro k _; simp)
    have hreach : m ≤ (keepUnseen []
        (([_query_all_subdivisions_agg subResults (some m)].map
          QueryResult.features).flatten)).length := by
      simp only [List.map_cons, List.map_nil, List.flatten_cons, List.flatten_nil,
        List.append_nil]
      rw [hagg, hkeep]
      simp only [List.length_take]
      omega
    exact mainLoop_cap_reached m hm [_query_all_subdivisions_agg subResults (some m)]
      { combined := [], seen := [], template := none, exceeded := Val.bool false }
      (by simp; omega) (by simpa using hreach)

/-- Region used by the C3 counterexample: two features lacking all identity
attributes (same null key, different payloads) followed by two identifiable
features. -/
def dbC3 : List Feature :=
  [⟨[("note", Val.str "x")], []⟩, ⟨[("note", Val.str "y")], []⟩,
   ⟨[("OBJECTID", Val.num 1)], []⟩, ⟨[("OBJECTID", Val.num 2)], []⟩]

/-- Counterexample to C3 as stated: for one region with 3 deduplicated
available features (> cap 2), per-region mode returns only 1 feature instead
of exactly `maxRecords = 2` — the region query is truncated to the cap before
deduplication, which then collapses the two null-keyed features. -/
theorem claim_C3_counterexample :
    (([dbC3].flatten.map _feature_key).toFinset.card = 3) ∧
      (mainAggregate ([dbC3].map (fun db => queryFeaturesList 1000 [] db (some 2)))
        (some 2)).features.length = 1 := by
  decide

/-- Witness for C3 (amended): a two-feature region with distinct keys and cap
1 yields exactly 1 feature and a true truncation flag in both modes. -/
theorem claim_C3_cap_truncation_amended_witness :
    ((mainAggregate ([[⟨[("OBJECTID", Val.num 1)], []⟩, ⟨[("OBJECTID", Val.num 2)], []⟩]].map
          (fun db => queryFeaturesList 1000 [] db (some 1))) (some 1)).features.length = 1 ∧
      dictLookup (mainAggregate ([[⟨[("OBJECTID", Val.num 1)], []⟩,
          ⟨[("OBJECTID", Val.num 2)], []⟩]].map
          (fun db => queryFeaturesList 1000 [] db (some 1))) (some 1)).template etKey =
        some (Val.bool true)) ∧
    ((mainAggregate [_query_all_subdivisions_agg
          [⟨[], [⟨[("OBJECTID", Val.num 1)], []⟩, ⟨[("OBJECTID", Val.num 2)], []⟩]⟩]
          (some 1)] (some 1)).features.length = 1 ∧
      dictLookup (mainAggregate [_query_all_subdivisions_agg
          [⟨[], [⟨[("OBJECTID", Val.num 1)], []⟩, ⟨[("OBJECTID", Val.num 2)], []⟩]⟩]
          (some 1)] (some 1)).template etKey = some (Val.bool true)) :=
  ⟨claim_C3_cap_truncation_amended.1 1000 []
      [[⟨[("OBJECTID", Val.num 1)], []⟩, ⟨[("OBJECTID", Val.num 2)], []⟩]] 1
      (by decide) (by decide) (by decide) (by decide),
   claim_C3_cap_truncation_amended.2
      [⟨[], [⟨[("OBJECTID", Val.num 1)], []⟩, ⟨[("OBJECTID", Val.num 2)], []⟩]⟩] 1
      (by decide) (by decide) (by decide) (by decide)⟩

/-- The property references contributed to key `k` by `rows`, starting at row
index `idx` (specification helper for the registry). -/
def refsFor : List Row → Nat → OwnerKey → List PropRef
  | [], _, _ => []
  | r :: rs, idx, k =>
    if _owner_key r == k then
      ⟨idx, r.complx, r.unit, r.schedule⟩ :: refsFor rs (idx + 1) k
    else refsFor rs (idx + 1) k

/-- The owner records created for keys not in `seen`, numbering new ids from
`n + 1` (specification helper for the registry). -/
def freshOwners : List Row → Nat → List OwnerKey → Nat → List OwnerRec
  | [], _, _, _ => []
  | r :: rs, idx, seen, n =>
    let k := _owner_key r
    if k ∈ seen then freshOwners rs (idx + 1) seen n
    else ⟨ownerIdFor (n + 1), k, refsFor (r :: rs) idx k⟩ ::
      freshOwners rs (idx + 1) (seen ++ [k]) (n + 1)

theorem build_go_spec : ∀ (rows : List Row) (idx : Nat) (owners : List OwnerRec),
    _build_owner_registry_go rows idx owners =
      owners.map (fun o => ⟨o.ownerId, o.key, o.properties ++ refsFor rows idx o.key⟩) ++
        freshOwners rows idx (owners.map OwnerRec.key) owners.length := by
  intro rows
  induction rows with
  | nil =>
    intro idx owners
    simp only [_build_owner_registry_go, refsFor, freshOwners, List.append_nil]
    have hmap : owners.map (fun o => (⟨o.ownerId, o.key, o.properties⟩ : OwnerRec)) =
        owners := by
      conv_rhs => rw [← List.map_id owners]
      apply List.map_congr_left
      intro o _
      rfl
    exact hmap.symm
  | cons r rs ih =>
    intro idx owners
    have hany : (owners.any (fun o => o.key == _owner_key r)) = true ↔
        _owner_key r ∈ owners.map OwnerRec.key := by
      rw [List.any_eq_true]
      constructor
      · rintro ⟨o, ho, hk⟩
        exact List.mem_map.mpr ⟨o, ho, (by simpa using hk)⟩
      · intro hk
        obtain ⟨o, ho, hk⟩ := List.mem_map.mp hk
        exact ⟨o, ho, by simpa using hk⟩
    by_cases hmem : _owner_key r ∈ owners.map OwnerRec.key
    · rw [_build_owner_registry_go]
      rw [if_pos (hany.mpr hmem)]
      rw [ih]
      have hk1 : (owners.map (fun o =>
          if o.key == _owner_key r
          then { o with properties := o.properties ++ [⟨idx, r.complx, r.unit, r.schedule⟩] }
          else o)).map OwnerRec.key = owners.map OwnerRec.key := by
        rw [List.map_map]
        apply List.map_congr_left
        intro o _
        by_cases h : o.key = _owner_key r <;> simp [h]
      have hk2 : (owners.map (fun o =>
          if o.key == _owner_key r
          then { o with properties := o.properties ++ [⟨idx, r.complx, r.unit, r.schedule⟩] }
          else o)).length = owners.length := by
        rw [List.length_map]
      rw [hk1, hk2, List.map_map]
      have hfr : freshOwners (r :: rs) idx (owners.map OwnerRec.key) owners.length =
          freshOwners rs (idx + 1) (owners.map OwnerRec.key) owners.length := by
        rw [freshOwners]
        simp only [hmem, if_true]
      rw [hfr]
      congr 1
      apply List.map_congr_left
      intro o _
      by_cases h : o.key == _owner_key r
      · have hkey : o.key = _owner_key r := by simpa using h
        simp only [Function.comp_apply, h, if_true]
        have : refsFor (r :: rs) idx o.key =
            ⟨idx, r.complx, r.unit, r.schedule⟩ :: refsFor rs (idx + 1) o.key := by
          rw [refsFor, if_pos (by simpa using hkey.symm)]
        rw [this]
        simp [List.append_assoc]
      · have hkey : o.key ≠ _owner_key r := by simpa using h
        simp only [Function.comp_apply, h, Bool.false_eq_true, if_false]
        have : refsFor (r :: rs) idx o.key = refsFor rs (idx + 1) o.key := by
          rw [refsFor, if_neg (by simpa using fun he => hkey (by simpa using he.symm))]
        rw [this]
    · rw [_build_owner_registry_go]
      rw [if_neg (fun hc => hmem (hany.mp hc))]
      rw [ih]
      have hk1 : (owners ++ [(⟨ownerIdFor (owners.length + 1), _owner_key r,
          [⟨idx, r.complx, r.unit, r.schedule⟩]⟩ : OwnerRec)]).map OwnerRec.key =
          owners.map OwnerRec.key ++ [_owner_key r] := by
        rw [List.map_append]
        rfl
      have hk2 : (owners ++ [(⟨ownerIdFor (owners.length + 1), _owner_key r,
          [⟨idx, r.complx, r.unit, r.schedule⟩]⟩ : OwnerRec)]).length =
          owners.length + 1 := by
        simp
      rw [hk1, hk2, List.map_append]
      have hfr : freshOwners (r :: rs) idx (owners.map OwnerRec.key) owners.length =
          ⟨ownerIdFor (owners.length + 1), _owner_key r, refsFor (r :: rs) idx (_owner_key r)⟩ ::
            freshOwners rs (idx + 1) (owners.map OwnerRec.key ++ [_owner_key r])
              (owners.length + 1) := by
        rw [freshOwners]
        simp only [hmem, if_false]
      rw [hfr]
      have hsingle : ([(⟨ownerIdFor (owners.length + 1), _owner_key r,
          [⟨idx, r.complx, r.unit, r.schedule⟩]⟩ : OwnerRec)]).map
          (fun o => (⟨o.ownerId, o.key, o.properties ++ refsFor rs (idx + 1) o.key⟩ : OwnerRec)) =
          [⟨ownerIdFor (owners.length + 1), _owner_key r, refsFor (r :: rs) idx (_owner_key r)⟩] := by
        simp only [List.map_cons, List.map_nil]
        have : refsFor (r :: rs) idx (_owner_key r) =
            ⟨idx, r.complx, r.unit, r.schedule⟩ :: refsFor rs (idx + 1) (_owner_key r) := by
          rw [refsFor, if_pos (by simp)]
        rw [this]
        rfl
      rw [hsingle]
      have hmap : owners.map (fun o =>
          (⟨o.ownerId, o.key, o.properties ++ refsFor rs (idx + 1) o.key⟩ : OwnerRec)) =
          owners.map (fun o =>
          (⟨o.ownerId, o.key, o.properties ++ refsFor (r :: rs) idx o.key⟩ : OwnerRec)) := by
        apply List.map_congr_left
        intro o ho
        have hkey : o.key ≠ _owner_key r := by
          intro he
          exact hmem (he ▸ List.mem_map_of_mem OwnerRec.key ho)
        have : refsFor (r :: rs) idx o.key = refsFor rs (idx + 1) o.key := by
          rw [refsFor, if_neg (by simpa using fun he => hkey (by simpa using he.symm))]
        rw [this]
      rw [hmap]
      simp [List.append_assoc]

theorem freshOwners_map_key (rows : List Row) :
    ∀ (idx : Nat) (seen : List OwnerKey) (n : Nat),
      (freshOwners rows idx seen n).map OwnerRec.key =
        firstSeenAux seen (rows.map _owner_key) := by
  induction rows with
  | nil => intro idx seen n; simp [freshOwners, firstSeenAux]
  | cons r rs ih =>
    intro idx seen n
    by_cases h : _owner_key r ∈ seen
    · simp only [freshOwners, firstSeenAux, List.map_cons, h, if_true]
      exact ih (idx + 1) seen n
    · simp only [freshOwners, firstSeenAux, List.map_cons, h, if_false]
      rw [ih (idx + 1) (seen ++ [_owner_key r]) (n + 1)]

theorem freshOwners_map_id (rows : List Row) :
    ∀ (idx : Nat) (seen : List OwnerKey) (n : Nat),
      (freshOwners rows idx seen n).map OwnerRec.ownerId =
        (List.range (freshOwners rows idx seen n).length).map
          (fun j => ownerIdFor (n + j + 1)) := by
  induction rows with
  | nil => intro idx seen n; simp [freshOwners]
  | cons r rs ih =>
    intro idx seen n
    by_cases h : _owner_key r ∈ seen
    · simp only [freshOwners, h, if_true]
      exact ih (idx + 1) seen n
    · simp only [freshOwners, h, if_false, List.map_cons, List.length_cons]
      rw [ih (idx + 1) (seen ++ [_owner_key r]) (n + 1)]
      rw [List.range_succ_eq_map, List.map_cons, List.map_map]
      simp only [Nat.add_zero]
      congr 1
      apply List.map_congr_left
      intro j _
      simp only [Function.comp_apply, Nat.succ_eq_add_one]
      congr 1
      omega

theorem freshOwners_props (rows : List Row) :
    ∀ (idx : Nat) (seen : List OwnerKey) (n : Nat),
      (freshOwners rows idx seen n).map (fun o => (o.key, o.properties)) =
        ((freshOwners rows idx seen n).map OwnerRec.key).map
          (fun k => (k, refsFor rows idx k)) := by
  induction rows with
  | nil => intro idx seen n; simp [freshOwners]
  | cons r rs ih =>
    intro idx seen n
    by_cases h : _owner_key r ∈ seen
    · simp only [freshOwners, h, if_true]
      rw [ih (idx + 1) seen n]
      apply List.map_congr_left
      intro k hk
      have hkseen : k ∉ seen := by
        rw [freshOwners_map_key] at hk
        exact firstSeenAux_not_mem_seen _ _ _ hk
      have hkr : _owner_key r ≠ k := fun he => hkseen (he ▸ h)
      rw [refsFor, if_neg (by simpa using hkr)]
    · simp only [freshOwners, h, if_false, List.map_cons]
      rw [ih (idx + 1) (seen ++ [_owner_key r]) (n + 1)]
      congr 1
      apply List.map_congr_left
      intro k hk
      have hkseen : k ∉ seen ++ [_owner_key r] := by
        rw [freshOwners_map_key] at hk
        exact firstSeenAux_not_mem_seen _ _ _ hk
      have hkr : _owner_key r ≠ k := by
        intro he
        exact hkseen (by simp [he])
      rw [refsFor, if_neg (by simpa using hkr)]

theorem ownerStartRows_spec (owners : List OwnerRec) :
    ∀ cur, ownerStartRows owners cur =
      (List.range owners.length).map
        (fun i => cur + ((owners.take i).map (fun o => o.properties.length)).sum) := by
  induction owners with
  | nil => intro cur; simp [ownerStartRows]
  | cons o os ih =>
    intro cur
    rw [ownerStartRows, ih (cur + o.properties.length)]
    simp only [List.length_cons]
    rw [List.range_succ_eq_map, List.map_cons, List.map_map]
    simp only [List.take_zero, List.map_nil, List.sum_nil, Nat.add_zero]
    congr 1
    apply List.map_congr_left
    intro j _
    simp only [Function.comp_apply, Nat.succ_eq_add_one, List.take_succ_cons, List.map_cons,
      List.sum_cons]
    omega

/-- Claim C4: the linker creates exactly one owner record per distinct
case-normalized identity key (rows with equal keys share one record, whose
property list collects the row references in order); owner ids are assigned
sequentially in first-seen order as `OWN0001, OWN0002, ...`, zero-padded to
at least 4 digits; and the starting sheet rows assigned by the hyperlink pass
run consecutively from row 2, each owner consuming one row per linked
property. -/
theorem claim_C4_owner_registry (rows : List Row) :
    ((_build_owner_registry rows).map OwnerRec.key =
        firstSeenAux [] (rows.map _owner_key)) ∧
      ((_build_owner_registry rows).map OwnerRec.key).Nodup ∧
      (_build_owner_registry rows).length = (rows.map _owner_key).toFinset.card ∧
      ((_build_owner_registry rows).map OwnerRec.ownerId =
        (List.range (_build_owner_registry rows).length).map
          (fun i => ownerIdFor (i + 1))) ∧
      ((_build_owner_registry rows).map (fun o => (o.key, o.properties)) =
        ((_build_owner_registry rows).map OwnerRec.key).map
          (fun k => (k, refsFor rows 0 k))) ∧
      (_apply_hyperlink_urls (_build_owner_registry rows) =
        (List.range (_build_owner_registry rows).length).map
          (fun i => 2 + (((_build_owner_registry rows).take i).map
            (fun o => o.properties.length)).sum)) := by
  have hreg : _build_owner_registry rows = freshOwners rows 0 [] 0 := by
    rw [_build_owner_registry, build_go_spec]
    simp
  refine ⟨?_, ?_, ?_, ?_, ?_, ?_⟩
  · rw [hreg, freshOwners_map_key]
  · rw [hreg, freshOwners_map_key]
    exact firstSeenAux_nodup _ _
  · rw [hreg]
    have h1 : (freshOwners rows 0 [] 0).length =
        ((freshOwners rows 0 [] 0).map OwnerRec.key).length := by simp
    rw [h1, freshOwners_map_key, firstSeenAux_length]
    simp
  · rw [hreg, freshOwners_map_id]
    apply List.map_congr_left
    intro j _
    congr 1
    omega
  · rw [hreg, freshOwners_props]
  · rw [hreg, _apply_hyperlink_urls, ownerStartRows_spec]

theorem padDecimal_length (w : Nat) : ∀ m, (padDecimal w m).length = w := by
  induction w with
  | zero => intro m; rfl
  | succ w ih => intro m; simp [padDecimal, ih]

theorem lexLt_irrefl : ∀ s : List Char, lexLt s s = false := by
  intro s
  induction s with
  | nil => rfl
  | cons c cs ih => simp [lexLt, ih]

theorem lexLt_append_right (t : List Char) :
    ∀ s1 s2 : List Char, s1.length = s2.length →
      lexLt (s1 ++ t) (s2 ++ t) = lexLt s1 s2 := by
  intro s1
  induction s1 with
  | nil =>
    intro s2 hlen
    have : s2 = [] := by
      cases s2 with
      | nil => rfl
      | cons _ _ => simp at hlen
    subst this
    simp [lexLt_irrefl, lexLt]
  | cons a as ih =>
    intro s2 hlen
    cases s2 with
    | nil => simp at hlen
    | cons b bs =>
      simp only [List.cons_append, lexLt]
      by_cases h1 : a < b
      · simp [h1]
      · by_cases h2 : b < a
        · simp [h1, h2]
        · simp only [h1, h2, if_false]
          exact ih bs (by simpa using hlen)

theorem digitChar_lt_iff : ∀ d < 10, ∀ e < 10,
    ((Nat.digitChar d < Nat.digitChar e) ↔ d < e) ∧
      (Nat.digitChar d = Nat.digitChar e ↔ d = e) := by
  decide

theorem padDecimal_order (w : Nat) : ∀ m n, m < 10 ^ w → n < 10 ^ w →
    ((lexLt (padDecimal w m) (padDecimal w n) = true ↔ m < n) ∧
      (padDecimal w m = padDecimal w n ↔ m = n)) := by
  induction w with
  | zero =>
    intro m n hm hn
    simp only [pow_zero, Nat.lt_one_iff] at hm hn
    subst hm; subst hn
    simp [padDecimal, lexLt]
  | succ w ih =>
    intro m n hm hn
    have hX : 0 < 10 ^ w := Nat.pos_pow_of_pos w (by omega)
    have hd1 : m / 10 ^ w < 10 := by
      rw [Nat.div_lt_iff_lt_mul hX]
      calc m < 10 ^ (w + 1) := hm
        _ = 10 * 10 ^ w := by ring
    have hd2 : n / 10 ^ w < 10 := by
      rw [Nat.div_lt_iff_lt_mul hX]
      calc n < 10 ^ (w + 1) := hn
        _ = 10 * 10 ^ w := by ring
    have hr1 : m % 10 ^ w < 10 ^ w := Nat.mod_lt _ hX
    have hr2 : n % 10 ^ w < 10 ^ w := Nat.mod_lt _ hX
    have hmdec : 10 ^ w * (m / 10 ^ w) + m % 10 ^ w = m := Nat.div_add_mod m (10 ^ w)
    have hndec : 10 ^ w * (n / 10 ^ w) + n % 10 ^ w = n := Nat.div_add_mod n (10 ^ w)
    obtain ⟨hlt, heq⟩ := ih (m % 10 ^ w) (n % 10 ^ w) hr1 hr2
    obtain ⟨hclt, hceq⟩ := digitChar_lt_iff (m / 10 ^ w) hd1 (n / 10 ^ w) hd2
    simp only [padDecimal, lexLt]
    constructor
    · by_cases h1 : Nat.digitChar (m / 10 ^ w) < Nat.digitChar (n / 10 ^ w)
      · simp only [h1, if_true, true_iff]
        have hdiv : m / 10 ^ w < n / 10 ^ w := hclt.mp h1
        calc m = 10 ^ w * (m / 10 ^ w) + m % 10 ^ w := hmdec.symm
          _ < 10 ^ w * (m / 10 ^ w) + 10 ^ w := by omega
          _ = 10 ^ w * (m / 10 ^ w + 1) := by ring
          _ ≤ 10 ^ w * (n / 10 ^ w) := Nat.mul_le_mul_left _ (by omega)
          _ ≤ 10 ^ w * (n / 10 ^ w) + n % 10 ^ w := by omega
          _ = n := hndec
      · by_cases h2 : Nat.digitChar (n / 10 ^ w) < Nat.digitChar (m / 10 ^ w)
        · obtain ⟨hclt2, _⟩ := digitChar_lt_iff (n / 10 ^ w) hd2 (m / 10 ^ w) hd1
          have hdiv : n / 10 ^ w < m / 10 ^ w := hclt2.mp h2
          have hnm : n < m := by
            calc n = 10 ^ w * (n / 10 ^ w) + n % 10 ^ w := hndec.symm
              _ < 10 ^ w * (n / 10 ^ w) + 10 ^ w := by omega
              _ = 10 ^ w * (n / 10 ^ w + 1) := by ring
              _ ≤ 10 ^ w * (m / 10 ^ w) := Nat.mul_le_mul_left _ (by omega)
              _ ≤ 10 ^ w * (m / 10 ^ w) + m % 10 ^ w := by omega
              _ = m := hmdec
          simp only [h1, h2, if_true, if_false, Bool.false_eq_true, false_iff]
          omega
        · have hchar : Nat.digitChar (m / 10 ^ w) = Nat.digitChar (n / 10 ^ w) :=
            le_antisymm (not_lt.mp h2) (not_lt.mp h1)
          have hdeq : m / 10 ^ w = n / 10 ^ w := hceq.mp hchar
          have hXeq : 10 ^ w * (m / 10 ^ w) = 10 ^ w * (n / 10 ^ w) := by rw [hdeq]
          simp only [h1, h2, if_false]
          rw [hlt]
          omega
    · constructor
      · intro hcons
        have hhead : Nat.digitChar (m / 10 ^ w) = Nat.digitChar (n / 10 ^ w) :=
          (List.cons.injEq _ _ _ _).mp hcons |>.1
        have htail : padDecimal w (m % 10 ^ w) = padDecimal w (n % 10 ^ w) :=
          (List.cons.injEq _ _ _ _).mp hcons |>.2
        have hdeq : m / 10 ^ w = n / 10 ^ w := hceq.mp hhead
        have hreq : m % 10 ^ w = n % 10 ^ w := heq.mp htail
        have hXeq : 10 ^ w * (m / 10 ^ w) = 10 ^ w * (n / 10 ^ w) := by rw [hdeq]
        omega
      · intro hmn
        subst hmn
        rfl

theorem digit_toNat_le (c : Char) (h : c.isDigit = true) : 48 ≤ c.toNat ∧ c.toNat ≤ 57 := by
  simp only [Char.isDigit, Bool.and_eq_true, decide_eq_true_eq] at h
  exact h

theorem digitsToNat_foldl_lt (s : List Char) :
    s.all Char.isDigit = true → ∀ acc : Nat,
      s.foldl (fun n c => 10 * n + (c.toNat - 48)) acc < (acc + 1) * 10 ^ s.length := by
  induction s with
  | nil =>
    intro _ acc
    simp only [List.foldl_nil, List.length_nil, pow_zero, Nat.mul_one]
    omega
  | cons c cs ih =>
    intro hall acc
    obtain ⟨hcd, hcs⟩ : c.isDigit = true ∧ cs.all Char.isDigit = true := by
      simpa using hall
    have hc : c.toNat - 48 ≤ 9 := by
      have := digit_toNat_le c hcd
      omega
    simp only [List.foldl_cons, List.length_cons]
    calc cs.foldl (fun n c => 10 * n + (c.toNat - 48)) (10 * acc + (c.toNat - 48))
        < (10 * acc + (c.toNat - 48) + 1) * 10 ^ cs.length := ih hcs _
      _ ≤ ((acc + 1) * 10) * 10 ^ cs.length := by
          apply Nat.mul_le_mul_right
          omega
      _ = (acc + 1) * 10 ^ (cs.length + 1) := by ring

theorem digitsToNat_lt (s : List Char) (h : s.all Char.isDigit = true) :
    digitsToNat s < 10 ^ s.length := by
  have := digitsToNat_foldl_lt s h 0
  simpa [digitsToNat] using this

/-- The 52 ASCII letters. -/
def asciiLetters : List Char :=
  "ABCDEFGHIJKLMNOPQRSTUVWXYZabcdefghijklmnopqrstuvwxyz".toList

theorem letter_not_digit : ∀ c ∈ asciiLetters, c.isDigit = false := by decide

theorem digitChar_lt_lower_letter : ∀ c ∈ asciiLetters, ∀ d, d < 10 →
    Nat.digitChar d < Char.toLower c := by decide

/-- The numeric-branch key of a non-empty digit-string unit of at most 7
digits. -/
theorem unit_key_digits (a : List Char) (ha : a ≠ []) (had : a.all Char.isDigit = true)
    (hlen : a.length ≤ 7) :
    _unit_sort_key a = (0, padDecimal 7 (digitsToNat a) ++ ".0000".toList) := by
  have hval : digitsToNat a < 10 ^ 7 := by
    calc digitsToNat a < 10 ^ a.length := digitsToNat_lt a had
      _ ≤ 10 ^ 7 := Nat.pow_le_pow_right (by omega) hlen
  unfold _unit_sort_key
  rw [if_neg (by simpa using ha)]
  rw [parseFloatDigits, if_pos ⟨ha, had⟩]
  simp only [fmtFloat0124]
  rw [if_pos hval]

/-- Claim C5 (amended): the final row ordering is a stable sort by
(lower-cased grouping label, `_unit_sort_key` of the unit); on that key,
numeric (digit-string) unit labels compare by numeric value, digit-string
units sort before every unit label starting with a letter, and an empty unit
sorts after every present one — but a non-numeric unit whose first character
precedes the digits (such as "-A") sorts before numeric units, contrary to
the unrestricted claim (see the counterexample). -/
theorem claim_C5_unit_order_amended :
    (∀ a b : List Char, a ≠ [] → b ≠ [] →
      a.all Char.isDigit = true → b.all Char.isDigit = true →
      a.length ≤ 7 → b.length ≤ 7 →
      (unitKeyLt (_unit_sort_key a) (_unit_sort_key b) = true ↔
        digitsToNat a < digitsToNat b)) ∧
    (∀ (a : List Char) (c : Char) (bs : List Char), a ≠ [] →
      a.all Char.isDigit = true → a.length ≤ 7 → c ∈ asciiLetters →
      unitKeyLt (_unit_sort_key a) (_unit_sort_key (c :: bs)) = true) ∧
    (∀ u : List Char, u ≠ [] →
      unitKeyLt (_unit_sort_key u) (_unit_sort_key []) = true) ∧
    (sortOwnerRows [⟨[], "A".toList, [], [], [], [], [], []⟩,
        ⟨[], "10".toList, [], [], [], [], [], []⟩,
        ⟨[], "".toList, [], [], [], [], [], []⟩,
        ⟨[], "2".toList, [], [], [], [], [], []⟩]).map Row.unit =
      ["2".toList, "10".toList, "A".toList, "".toList] := by
  refine ⟨?_, ?_, ?_, by decide⟩
  · intro a b ha hb had hbd halen hblen
    have hva : digitsToNat a < 10 ^ 7 := by
      calc digitsToNat a < 10 ^ a.length := digitsToNat_lt a had
        _ ≤ 10 ^ 7 := Nat.pow_le_pow_right (by omega) halen
    have hvb : digitsToNat b < 10 ^ 7 := by
      calc digitsToNat b < 10 ^ b.length := digitsToNat_lt b hbd
        _ ≤ 10 ^ 7 := Nat.pow_le_pow_right (by omega) hblen
    rw [unit_key_digits a ha had halen, unit_key_digits b hb hbd hblen]
    show lexLt (padDecimal 7 (digitsToNat a) ++ ".0000".toList)
      (padDecimal 7 (digitsToNat b) ++ ".0000".toList) = true ↔ _
    rw [lexLt_append_right _ _ _ (by rw [padDecimal_length, padDecimal_length])]
    exact (padDecimal_order 7 (digitsToNat a) (digitsToNat b) hva hvb).1
  · intro a c bs ha had halen hc
    have hva : digitsToNat a < 10 ^ 7 := by
      calc digitsToNat a < 10 ^ a.length := digitsToNat_lt a had
        _ ≤ 10 ^ 7 := Nat.pow_le_pow_right (by omega) halen
    rw [unit_key_digits a ha had halen]
    have hbkey : _unit_sort_key (c :: bs) = (0, pyLower (c :: bs)) := by
      unfold _unit_sort_key
      rw [if_neg (by simp)]
      rw [parseFloatDigits, if_neg (by
        rintro ⟨_, hall⟩
        obtain ⟨hcd, _⟩ : c.isDigit = true ∧ bs.all Char.isDigit = true := by
          simpa using hall
        rw [letter_not_digit c hc] at hcd
        exact Bool.false_ne_true hcd)]
    rw [hbkey]
    have hdiv : digitsToNat a / 10 ^ 6 < 10 := by
      rw [Nat.div_lt_iff_lt_mul (Nat.pos_pow_of_pos 6 (by omega))]
      calc digitsToNat a < 10 ^ 7 := hva
        _ = 10 * 10 ^ 6 := by ring
    have hlt : Nat.digitChar (digitsToNat a / 10 ^ 6) < Char.toLower c :=
      digitChar_lt_lower_letter c hc _ hdiv
    show lexLt (padDecimal 7 (digitsToNat a) ++ ".0000".toList)
      (pyLower (c :: bs)) = true
    rw [show padDecimal 7 (digitsToNat a) =
      Nat.digitChar (digitsToNat a / 10 ^ 6) ::
        padDecimal 6 (digitsToNat a % 10 ^ 6) from rfl]
    simp only [pyLower, List.map_cons, List.cons_append, lexLt]
    rw [if_pos hlt]
  · intro u hu
    have h0 : (_unit_sort_key u).1 = 0 := by
      unfold _unit_sort_key
      rw [if_neg (by simpa using hu)]
      cases parseFloatDigits u <;> rfl
    rcases hku : _unit_sort_key u with ⟨n, str⟩
    have hn : n = 0 := by
      rw [hku] at h0
      exact h0
    subst hn
    simp [unitKeyLt, _unit_sort_key]

/-- Witness for C5 (amended) at concrete units: "2" sorts before "10"
numerically, "2" sorts before "A", and "A" sorts before the empty unit. -/
theorem claim_C5_unit_order_amended_witness :
    (unitKeyLt (_unit_sort_key "2".toList) (_unit_sort_key "10".toList) = true ↔
      digitsToNat "2".toList < digitsToNat "10".toList) ∧
    unitKeyLt (_unit_sort_key "2".toList) (_unit_sort_key ("A".toList)) = true ∧
    unitKeyLt (_unit_sort_key "A".toList) (_unit_sort_key []) = true :=
  ⟨claim_C5_unit_order_amended.1 "2".toList "10".toList (by decide) (by decide)
      (by decide) (by decide) (by decide) (by decide),
   claim_C5_unit_order_amended.2.1 "2".toList 'A' [] (by decide) (by decide)
      (by decide) (by decide),
   claim_C5_unit_order_amended.2.2.1 "A".toList (by decide)⟩

/-- Counterexample to C5 as stated: the unit "-A" does not parse as a number
(`float("-A")` raises), yet it sorts before the numeric unit "2" — a
non-numeric label whose first character precedes the digit characters does
not sort after the numeric labels. -/
theorem claim_C5_counterexample :
    parseFloatDigits "-A".toList = none ∧
      unitKeyLt (_unit_sort_key "-A".toList) (_unit_sort_key "2".toList) = true ∧
      (sortOwnerRows [⟨[], "2".toList, [], [], [], [], [], []⟩,
          ⟨[], "-A".toList, [], [], [], [], [], []⟩]).map Row.unit =
        ["-A".toList, "2".toList] := by
  decide

/-- Claim C7: the three name-splitting examples of the spec hold: "Smith Jr"
splits to last "Smith" with suffix "Jr" and all other fields empty;
"Acme Properties LLC" is classified as a company verbatim with all person
fields empty; "John & Jane Doe" keeps the joint first span "John & Jane"
with empty middle and last "Doe". -/
theorem claim_C7_split_name_examples :
    _split_owner_name "Smith Jr".toList =
        ⟨[], [], "Smith".toList, "Jr".toList, [], []⟩ ∧
      _split_owner_name "Acme Properties LLC".toList =
        ⟨[], [], [], [], [], "Acme Properties LLC".toList⟩ ∧
      _split_owner_name "John & Jane Doe".toList =
        ⟨"John & Jane".toList, [], "Doe".toList, [], [], []⟩ := by
  decide

theorem businessMatch_nil : businessMatch [] = false := by decide

/-- Claim C6 (amended): `_split_owner_name` classifies an input as a business
exactly when its upper-cased cleaned text contains one of the fixed business
keywords as a plain substring (each keyword carrying its own leading — and
for a few, trailing — delimiter characters, so a keyword can also match
inside a longer word); when classified, the whole cleaned string is returned
as the company and every person field is empty. -/
theorem claim_C6_business_classification_amended (raw : List Char) :
    ((_split_owner_name raw).company ≠ [] ↔
        businessMatch (pyUpper (splitNameClean raw)) = true) ∧
      (businessMatch (pyUpper (splitNameClean raw)) = true →
        _split_owner_name raw = ⟨[], [], [], [], [], splitNameClean raw⟩) := by
  by_cases h0 : (stripEnds (fun c => c = ',') (stripEnds isPyWs raw)).isEmpty
  · have hnil : stripEnds (fun c => c = ',') (stripEnds isPyWs raw) = [] := by
      simpa using h0
    have hclean : splitNameClean raw = [] := by
      rw [splitNameClean, hnil]
      rfl
    have hres : _split_owner_name raw = ⟨[], [], [], [], [], []⟩ := by
      rw [_split_owner_name]
      rw [if_pos h0]
    rw [hres, hclean]
    simp only [pyUpper, List.map_nil, businessMatch_nil]
    constructor
    · constructor
      · intro h
        exact absurd rfl h
      · intro h
        exact absurd h (by simp)
    · intro h
      exact absurd h (by simp)
  · have hclean : splitNameClean raw =
        replaceDoubleSpace (stripEnds (fun c => c = ',') (stripEnds isPyWs raw)) := rfl
    by_cases hb : businessMatch
        (pyUpper (replaceDoubleSpace (stripEnds (fun c => c = ',') (stripEnds isPyWs raw)))) = true
    · have hres : _split_owner_name raw = ⟨[], [], [], [], [],
          replaceDoubleSpace (stripEnds (fun c => c = ',') (stripEnds isPyWs raw))⟩ := by
        rw [_split_owner_name]
        rw [if_neg h0, if_pos hb]
      have hne : replaceDoubleSpace (stripEnds (fun c => c = ',') (stripEnds isPyWs raw)) ≠ [] := by
        intro hcn
        rw [hcn] at hb
        simp only [pyUpper, List.map_nil, businessMatch_nil] at hb
        exact Bool.false_ne_true hb
      rw [hres, hclean]
      exact ⟨⟨fun _ => hb, fun _ => hne⟩, fun _ => rfl⟩
    · have hres : (_split_owner_name raw).company = [] := by
        rw [_split_owner_name]
        rw [if_neg h0, if_neg hb]
        dsimp only
        split
        · rfl
        · split
          · rfl
          · rfl
          · split
            · rfl
            · rfl
      rw [hclean]
      constructor
      · rw [hres]
        constructor
        · intro h
          exact absurd rfl h
        · intro h
          exact absurd h hb
      · intro h
        exact absurd h hb

/-- Witness for C6 (amended): "Riverside Trust" matches the keyword " TRUST"
and is returned whole as the company with person fields empty. -/
theorem claim_C6_business_classification_amended_witness :
    _split_owner_name "Riverside Trust".toList =
      ⟨[], [], [], [], [], splitNameClean "Riverside Trust".toList⟩ :=
  (claim_C6_business_classification_amended "Riverside Trust".toList).2 (by decide)

/-- The matching rule the claim describes: a business keyword counts only when
it occurs with surrounding-space boundaries (string edges counting as
boundaries), so a keyword never matches inside a longer word. -/
def spaceBoundedBusinessMatch (upper : List Char) : Bool :=
  BUSINESS_KEYWORDS.any (fun kw =>
    containsSub (' ' :: upper ++ [' ']) (' ' :: stripEnds isPyWs kw ++ [' ']))

/-- Counterexample to C6 as stated: "Bob Incredible" contains no business
keyword with surrounding-space boundaries (so the claim predicts a person),
yet the code classifies it as a business because the keyword " INC" matches
inside the longer word "INCREDIBLE". -/
theorem claim_C6_counterexample :
    (_split_owner_name "Bob Incredible".toList).company = "Bob Incredible".toList ∧
      spaceBoundedBusinessMatch (pyUpper (splitNameClean "Bob Incredible".toList)) = false := by
  decide

theorem takeWhile_append_stop (p : Char → Bool) :
    ∀ (xs : List Char), (∀ x ∈ xs, p x = true) →
      ∀ (y : Char), p y = false → ∀ (ys : List Char),
      (xs ++ y :: ys).takeWhile p = xs ∧ (xs ++ y :: ys).dropWhile p = y :: ys := by
  intro xs
  induction xs with
  | nil =>
    intro _ y hy ys
    simp [List.takeWhile_cons, List.dropWhile_cons, hy]
  | cons x xs ih =>
    intro hall y hy ys
    have hx : p x = true := hall x (by simp)
    have hxs : ∀ x ∈ xs, p x = true := fun a ha => hall a (by simp [ha])
    obtain ⟨h1, h2⟩ := ih hxs y hy ys
    simp [List.takeWhile_cons, List.dropWhile_cons, hx, h1, h2]

theorem takeRun_append (p : Char → Bool) (xs : List Char) (hne : xs ≠ [])
    (hall : ∀ x ∈ xs, p x = true) (y : Char) (hy : p y = false) (ys : List Char) :
    takeRun p (xs ++ y :: ys) = some (xs, y :: ys) := by
  obtain ⟨h1, h2⟩ := takeWhile_append_stop p xs hall y hy ys
  unfold takeRun
  rw [h1, h2]
  simp [hne]

theorem dropLit_append (lit rest : List Char) : dropLit lit (lit ++ rest) = some rest := by
  unfold dropLit
  rw [if_pos (List.isPrefixOf_iff_prefix.mpr (List.prefix_append lit rest))]
  rw [List.drop_left]

theorem labelMatch_escape (l : List Char) :
    ∀ rest, labelMatch (_excel_escape l ++ dq :: ')' :: rest) = some (_excel_escape l, rest) := by
  have hrp : ¬ (')' : Char) = dq := by decide
  induction l with
  | nil =>
    intro rest
    show labelMatch (dq :: ')' :: rest) = some ([], rest)
    rw [labelMatch.eq_def]
    simp [hrp]
  | cons c l ih =>
    intro rest
    by_cases hc : c = dq
    · subst hc
      show labelMatch (dq :: dq :: (_excel_escape l ++ dq :: ')' :: rest)) =
        some (dq :: dq :: _excel_escape l, rest)
      rw [labelMatch.eq_def]
      simp [ih rest]
    · have hesc : _excel_escape (c :: l) = c :: _excel_escape l := by
        rw [_excel_escape, if_neg hc]
      rw [hesc]
      show labelMatch (c :: (_excel_escape l ++ dq :: ')' :: rest)) =
        some (c :: _excel_escape l, rest)
      rw [labelMatch.eq_def]
      simp [hc, ih rest]

theorem unescape_escape (l : List Char) : unescapeQuotes (_excel_escape l) = l := by
  induction l with
  | nil => rfl
  | cons c l ih =>
    by_cases hc : c = dq
    · subst hc
      have hesc : _excel_escape (dq :: l) = dq :: dq :: _excel_escape l := by
        rw [_excel_escape, if_pos rfl]
      rw [hesc]
      rw [show unescapeQuotes (dq :: dq :: _excel_escape l) = dq :: unescapeQuotes (_excel_escape l) from by
        rw [unescapeQuotes]
        simp]
      rw [ih]
    · have hesc : _excel_escape (c :: l) = c :: _excel_escape l := by
        rw [_excel_escape, if_neg hc]
      rw [hesc]
      cases hl : _excel_escape l with
      | nil =>
        have : l = [] := by
          cases l with
          | nil => rfl
          | cons d l' =>
            rw [_excel_escape] at hl
            split at hl <;> simp at hl
        subst this
        rfl
      | cons e es =>
        rw [show unescapeQuotes (c :: e :: es) = c :: unescapeQuotes (e :: es) from by
          rw [unescapeQuotes]
          rw [if_neg (by simp [hc])]]
        rw [← hl, ih]

theorem digit_not_upperAZ (c : Char) (h : c.isDigit = true) : isUpperAZ c = false := by
  simp only [Char.isDigit, Bool.and_eq_true, decide_eq_true_eq] at h
  simp only [isUpperAZ, Bool.and_eq_false_iff]
  left
  simp only [decide_eq_false_iff_not, Char.not_le]
  have h2 : c.val ≤ 57 := h.2
  rw [Char.lt_def]
  simp only [UInt32.lt_def, UInt32.le_def, Fin.lt_def, Fin.le_def,
    BitVec.lt_def, BitVec.le_def] at h2 ⊢
  have e1 : (UInt32.toBitVec 57).toNat = 57 := rfl
  have e2 : (UInt32.toBitVec ('A').val).toNat = 65 := rfl
  omega

theorem digit_ne_dq (c : Char) (h : c.isDigit = true) : c ≠ dq := by
  intro he
  subst he
  exact Bool.false_ne_true ((by decide : dq.isDigit = false) ▸ h)

theorem digit_ne_slash (c : Char) (h : c.isDigit = true) : c ≠ '/' := by
  intro he
  subst he
  exact Bool.false_ne_true ((by decide : ('/').isDigit = false) ▸ h)

theorem takeRun_inv (p : Char → Bool) (s run rest : List Char)
    (h : takeRun p s = some (run, rest)) :
    run ≠ [] ∧ (∀ c ∈ run, p c = true) := by
  unfold takeRun at h
  dsimp only at h
  split at h
  · exact absurd h (by simp)
  · rename_i hne
    have h1 : s.takeWhile p = run ∧ s.dropWhile p = rest := by
      constructor <;> [exact congrArg Prod.fst (Option.some.inj h);
        exact congrArg Prod.snd (Option.some.inj h)]
    constructor
    · rw [← h1.1]
      intro hc
      rw [hc] at hne
      simp at hne
    · intro c hc
      rw [← h1.1] at hc
      exact List.mem_takeWhile_imp hc

theorem stripEnds_no_ws (x : Char) (xs : List Char) (y : Char)
    (hx : isPyWs x = false) (hy : isPyWs y = false) :
    stripEnds isPyWs (x :: (xs ++ [y])) = x :: (xs ++ [y]) := by
  unfold stripEnds
  rw [List.dropWhile_cons]
  rw [if_neg (by simp [hx])]
  have hrev : (x :: (xs ++ [y])).reverse = y :: (xs.reverse ++ [x]) := by
    simp
  rw [hrev, List.dropWhile_cons]
  rw [if_neg (by simp [hy])]
  rw [← hrev, List.reverse_reverse]

theorem matchHyperlink_build (doc gid ls ds l : List Char)
    (hdoc : doc ≠ []) (hdocs : ∀ c ∈ doc, c ≠ '/')
    (hgid : gid ≠ []) (hgidd : ∀ c ∈ gid, c.isDigit = true)
    (hls : ls ≠ []) (hlsu : ∀ c ∈ ls, isUpperAZ c = true)
    (hds : ds ≠ []) (hdsd : ∀ c ∈ ds, c.isDigit = true) :
    matchHyperlink (_build_hyperlink_formula doc gid (ls ++ ds) l) =
      some (ls ++ ds, if l.isEmpty then ls ++ ds else l) := by
  have hedit : editGidLit = '/' :: "edit#gid=".toList := by decide
  have hrange : rangeLit = '&' :: "range=".toList := by decide
  have hcomma : ", ".toList = ',' :: ' ' :: ([] : List Char) := by decide
  set REST := [dq] ++ (", ".toList ++ ([dq] ++
    (_excel_escape (if l.isEmpty then ls ++ ds else l) ++ [dq, ')']))) with hREST
  have hbuild : _build_hyperlink_formula doc gid (ls ++ ds) l =
      hlHead ++ (doc ++ (editGidLit ++ (gid ++ (rangeLit ++ (ls ++ (ds ++ REST)))))) := by
    rw [_build_hyperlink_formula, hREST]
    simp only [List.append_assoc]
  rw [hbuild]
  unfold matchHyperlink
  rw [dropLit_append]
  simp only [bind, Option.bind]
  have hstep2 : takeRun (fun c => c ≠ '/')
      (doc ++ (editGidLit ++ (gid ++ (rangeLit ++ (ls ++ (ds ++ REST)))))) =
      some (doc, editGidLit ++ (gid ++ (rangeLit ++ (ls ++ (ds ++ REST))))) := by
    have hsh : editGidLit ++ (gid ++ (rangeLit ++ (ls ++ (ds ++ REST)))) =
        '/' :: ("edit#gid=".toList ++ (gid ++ (rangeLit ++ (ls ++ (ds ++ REST))))) := by
      rw [hedit]
      rfl
    rw [hsh]
    exact takeRun_append _ doc hdoc (fun x hx => by simp [hdocs x hx]) '/' (by simp) _
  rw [hstep2]
  simp only [bind, Option.bind]
  have hstep3 : dropLit editGidLit
      ('/' :: ("edit#gid=".toList ++ (gid ++ (rangeLit ++ (ls ++ (ds ++ REST)))))) =
      some (gid ++ (rangeLit ++ (ls ++ (ds ++ REST)))) := by
    have hsh : ('/' :: ("edit#gid=".toList ++ (gid ++ (rangeLit ++ (ls ++ (ds ++ REST))))) :
        List Char) = editGidLit ++ (gid ++ (rangeLit ++ (ls ++ (ds ++ REST)))) := by
      rw [hedit]
      rfl
    rw [hsh, dropLit_append]
  have hsh2 : editGidLit ++ (gid ++ (rangeLit ++ (ls ++ (ds ++ REST)))) =
      '/' :: ("edit#gid=".toList ++ (gid ++ (rangeLit ++ (ls ++ (ds ++ REST))))) := by
    rw [hedit]
    rfl
  rw [hsh2, hstep3]
  simp only [bind, Option.bind]
  have hstep4 : takeRun Char.isDigit (gid ++ (rangeLit ++ (ls ++ (ds ++ REST)))) =
      some (gid, rangeLit ++ (ls ++ (ds ++ REST))) := by
    have hsh : rangeLit ++ (ls ++ (ds ++ REST)) =
        '&' :: ("range=".toList ++ (ls ++ (ds ++ REST))) := by
      rw [hrange]
      rfl
    rw [hsh]
    exact takeRun_append _ gid hgid hgidd '&' (by decide) _
  rw [hstep4]
  simp only [bind, Option.bind]
  have hstep5 : dropLit rangeLit (rangeLit ++ (ls ++ (ds ++ REST))) =
      some (ls ++ (ds ++ REST)) := dropLit_append _ _
  rw [hstep5]
  simp only [bind, Option.bind]
  obtain ⟨d0, ds', rfl⟩ : ∃ d0 ds', ds = d0 :: ds' := by
    cases ds with
    | nil => exact absurd rfl hds
    | cons d0 ds' => exact ⟨d0, ds', rfl⟩
  have hstep6 : takeRun isUpperAZ (ls ++ ((d0 :: ds') ++ REST)) =
      some (ls, (d0 :: ds') ++ REST) := by
    have hsh : ((d0 :: ds') ++ REST : List Char) = d0 :: (ds' ++ REST) := rfl
    rw [hsh]
    exact takeRun_append _ ls hls hlsu d0
      (digit_not_upperAZ d0 (hdsd d0 (by simp))) _
  rw [hstep6]
  simp only [bind, Option.bind]
  have hstep7 : takeRun Char.isDigit ((d0 :: ds') ++ REST) =
      some (d0 :: ds', REST) := by
    have hsh : REST = dq :: (", ".toList ++ ([dq] ++
        (_excel_escape (if l.isEmpty then ls ++ (d0 :: ds') else l) ++ [dq, ')']))) := rfl
    rw [hsh]
    exact takeRun_append _ (d0 :: ds') (by simp) hdsd dq (by decide) _
  rw [hstep7]
  simp only [bind, Option.bind]
  rw [hREST]
  have hstep8 : dropLit [dq] ([dq] ++ (", ".toList ++ ([dq] ++
      (_excel_escape (if l.isEmpty then ls ++ (d0 :: ds') else l) ++ [dq, ')'])))) =
      some (", ".toList ++ ([dq] ++
      (_excel_escape (if l.isEmpty then ls ++ (d0 :: ds') else l) ++ [dq, ')']))) :=
    dropLit_append _ _
  rw [hstep8]
  simp only [bind, Option.bind]
  have hstep9 : (", ".toList ++ ([dq] ++
      (_excel_escape (if l.isEmpty then ls ++ (d0 :: ds') else l) ++ [dq, ')']))).dropWhile
        isPyWs =
      ',' :: (' ' :: ([dq] ++
      (_excel_escape (if l.isEmpty then ls ++ (d0 :: ds') else l) ++ [dq, ')']))) := by
    rw [show (", ".toList ++ ([dq] ++
      (_excel_escape (if l.isEmpty then ls ++ (d0 :: ds') else l) ++ [dq, ')']))) =
      ',' :: (' ' :: ([dq] ++
      (_excel_escape (if l.isEmpty then ls ++ (d0 :: ds') else l) ++ [dq, ')']))) from by
      rw [hcomma]
      rfl]
    rw [List.dropWhile_cons]
    rw [if_neg (by decide)]
  rw [hstep9]
  have hstep10 : dropLit [','] (',' :: (' ' :: ([dq] ++
      (_excel_escape (if l.isEmpty then ls ++ (d0 :: ds') else l) ++ [dq, ')'])))) =
      some (' ' :: ([dq] ++
      (_excel_escape (if l.isEmpty then ls ++ (d0 :: ds') else l) ++ [dq, ')']))) :=
    dropLit_append [','] _
  rw [hstep10]
  simp only [bind, Option.bind]
  have hstep11 : (' ' :: ([dq] ++
      (_excel_escape (if l.isEmpty then ls ++ (d0 :: ds') else l) ++ [dq, ')']))).dropWhile
        isPyWs =
      dq :: (_excel_escape (if l.isEmpty then ls ++ (d0 :: ds') else l) ++ [dq, ')']) := by
    rw [List.dropWhile_cons, if_pos (by decide)]
    rw [show ([dq] ++ (_excel_escape (if l.isEmpty then ls ++ (d0 :: ds') else l) ++ [dq, ')'])) =
      dq :: (_excel_escape (if l.isEmpty then ls ++ (d0 :: ds') else l) ++ [dq, ')']) from rfl]
    rw [List.dropWhile_cons, if_neg (by decide)]
  rw [hstep11]
  have hstep12 : dropLit [dq] (dq :: (_excel_escape
      (if l.isEmpty then ls ++ (d0 :: ds') else l) ++ [dq, ')'])) =
      some (_excel_escape (if l.isEmpty then ls ++ (d0 :: ds') else l) ++ [dq, ')']) :=
    dropLit_append [dq] _
  rw [hstep12]
  simp only [bind, Option.bind]
  rw [show (_excel_escape (if l.isEmpty then ls ++ (d0 :: ds') else l) ++ [dq, ')']) =
      (_excel_escape (if l.isEmpty then ls ++ (d0 :: ds') else l) ++ dq :: ')' :: []) from rfl]
  rw [labelMatch_escape]
  simp only [bind, Option.bind]
  rw [unescape_escape]
  rfl

theorem cellRefAt_inv (s r : List Char) (h : cellRefAt s = some r) :
    ∃ ls ds, r = ls ++ ds ∧ ls ≠ [] ∧ (∀ c ∈ ls, isUpperAZ c = true) ∧
      ds ≠ [] ∧ (∀ c ∈ ds, c.isDigit = true) := by
  rw [cellRefAt] at h
  simp only [bind, Option.bind_eq_some, pure, Option.some.injEq, Prod.exists] at h
  obtain ⟨s1, h1, a, s2, h2, s3, h3, ls, s4, h4, ds, s5, h5, hr⟩ := h
  obtain ⟨hls, hlsu⟩ := takeRun_inv _ _ _ _ h4
  obtain ⟨hds, hdsd⟩ := takeRun_inv _ _ _ _ h5
  exact ⟨ls, ds, hr.symm, hls, hlsu, hds, hdsd⟩

theorem cellRefSearch_inv (s r : List Char) (h : cellRefSearch s = some r) :
    ∃ ls ds, r = ls ++ ds ∧ ls ≠ [] ∧ (∀ c ∈ ls, isUpperAZ c = true) ∧
      ds ≠ [] ∧ (∀ c ∈ ds, c.isDigit = true) := by
  induction s with
  | nil => rw [cellRefSearch] at h; exact absurd h (by simp)
  | cons c rest ih =>
    cases e : cellRefAt (c :: rest) with
    | some r2 =>
      rw [cellRefSearch, e] at h
      exact Option.some.inj h ▸ cellRefAt_inv _ _ e
    | none =>
      rw [cellRefSearch, e] at h
      exact ih h

theorem matchHyperlink_inv (s r lbl : List Char)
    (h : matchHyperlink s = some (r, lbl)) :
    ∃ ls ds, r = ls ++ ds ∧ ls ≠ [] ∧ (∀ c ∈ ls, isUpperAZ c = true) ∧
      ds ≠ [] ∧ (∀ c ∈ ds, c.isDigit = true) := by
  rw [matchHyperlink] at h
  simp only [bind, Option.bind_eq_some, pure, Option.some.injEq, Prod.exists,
    Prod.mk.injEq] at h
  obtain ⟨s1, h1, a2, s2, h2, s3, h3, a4, s4, h4, s5, h5, ls, s6, h6, ds, s7, h7,
    s8, h8, s10, h10, s12, h12, esc, s13, h13, hr, hlbl⟩ := h
  obtain ⟨hls, hlsu⟩ := takeRun_inv _ _ _ _ h6
  obtain ⟨hds, hdsd⟩ := takeRun_inv _ _ _ _ h7
  exact ⟨ls, ds, hr.symm, hls, hlsu, hds, hdsd⟩

theorem extract_some_inv (v d r l : List Char)
    (h : _extract_range_and_label v d = (some r, l)) :
    ∃ ls ds, r = ls ++ ds ∧ ls ≠ [] ∧ (∀ c ∈ ls, isUpperAZ c = true) ∧
      ds ≠ [] ∧ (∀ c ∈ ds, c.isDigit = true) := by
  rw [_extract_range_and_label] at h
  cases em : matchHyperlink (stripEnds isPyWs v) with
  | some p =>
    rw [em] at h
    obtain ⟨cr, lab⟩ := p
    simp only [Prod.mk.injEq, Option.some.injEq] at h
    exact h.1 ▸ matchHyperlink_inv _ _ _ em
  | none =>
    rw [em] at h
    cases es : cellRefSearch (stripEnds isPyWs v) with
    | some cr =>
      rw [es] at h
      simp only [Prod.mk.injEq, Option.some.injEq] at h
      exact h.1 ▸ cellRefSearch_inv _ _ es
    | none =>
      rw [es] at h
      simp at h

theorem build_formula_shape (doc gid r l : List Char) :
    _build_hyperlink_formula doc gid r l =
      '=' :: (("HYPERLINK(".toList ++ [dq] ++ urlHead ++ doc ++ editGidLit ++ gid ++
        rangeLit ++ r ++ [dq] ++ ", ".toList ++ [dq] ++
        _excel_escape (if l.isEmpty then r else l) ++ [dq]) ++ [')']) := by
  rw [_build_hyperlink_formula]
  rw [show hlHead = '=' :: ("HYPERLINK(".toList ++ [dq] ++ urlHead) from by decide]
  simp [List.append_assoc]

theorem stripEnds_build (doc gid r l : List Char) :
    stripEnds isPyWs (_build_hyperlink_formula doc gid r l) =
      _build_hyperlink_formula doc gid r l := by
  rw [build_formula_shape]
  exact stripEnds_no_ws _ _ _ (by decide) (by decide)

theorem build_nonempty (doc gid r l : List Char) :
    (_build_hyperlink_formula doc gid r l).isEmpty = false := by
  rw [build_formula_shape]
  rfl

theorem rewriteCell_idem (doc gid dfl value : List Char)
    (hdoc : doc ≠ []) (hdocs : ∀ c ∈ doc, c ≠ '/')
    (hgid : gid ≠ []) (hgidd : ∀ c ∈ gid, c.isDigit = true) :
    rewriteCell doc gid dfl (rewriteCell doc gid dfl value) =
      rewriteCell doc gid dfl value := by
  by_cases he : (stripEnds isPyWs value).isEmpty
  · have hv : rewriteCell doc gid dfl value = value := by
      rw [rewriteCell, if_pos he]
    rw [hv]
    exact hv
  · cases hex0 : _extract_range_and_label value dfl with
    | mk o lab =>
      cases o with
      | none =>
        have hv : rewriteCell doc gid dfl value = value := by
          rw [rewriteCell, if_neg he, hex0]
        rw [hv]
        exact hv
      | some r =>
        have hv : rewriteCell doc gid dfl value =
            _build_hyperlink_formula doc gid r lab := by
          rw [rewriteCell, if_neg he, hex0]
        obtain ⟨ls, ds, hrd, hls, hlsu, hds, hdsd⟩ := extract_some_inv value dfl r lab hex0
        subst hrd
        rw [hv]
        have hm : matchHyperlink
            (stripEnds isPyWs (_build_hyperlink_formula doc gid (ls ++ ds) lab)) =
            some (ls ++ ds, if lab.isEmpty then ls ++ ds else lab) := by
          rw [stripEnds_build]
          exact matchHyperlink_build doc gid ls ds lab hdoc hdocs hgid hgidd
            hls hlsu hds hdsd
        have hne2 : ((stripEnds isPyWs
            (_build_hyperlink_formula doc gid (ls ++ ds) lab)).isEmpty = true) → False := by
          rw [stripEnds_build]
          rw [build_nonempty]
          exact Bool.false_ne_true
        have hex2 : _extract_range_and_label
            (_build_hyperlink_formula doc gid (ls ++ ds) lab) dfl =
            (some (ls ++ ds), if lab.isEmpty then ls ++ ds else lab) := by
          rw [_extract_range_and_label, hm]
        rw [rewriteCell, if_neg hne2, hex2]
        have hne3 : (ls ++ ds).isEmpty = false := by
          cases ls with
          | nil => exact absurd rfl hls
          | cons a t => rfl
        by_cases hl : lab.isEmpty
        · rw [if_pos hl]
          simp only [_build_hyperlink_formula]
          rw [if_pos hl, if_neg (by rw [hne3]; exact Bool.false_ne_true)]
        · rw [if_neg hl]

/-- Claim C8 (amended): link rewriting is idempotent on the hyperlink formula
text provided the target identity is well-formed — the document id is nonempty
and contains no slash, and both gids are nonempty digit strings (as real sheet
gids are).  Under those hypotheses, rewriting a workbook a second time to the
same identity reproduces exactly the workbook produced by the first rewrite.
Without the digit-gid hypothesis the property fails (see the counterexample):
a non-digit gid makes the HYPERLINK regex unmatchable, and the fallback cell
reference search can re-extract a range from the label text. -/
theorem claim_C8_link_rewrite_amended (doc cgid ogid : List Char) (wb : Workbook)
    (hdoc : doc ≠ []) (hdocs : ∀ c ∈ doc, c ≠ '/')
    (hcg : cgid ≠ []) (hcgd : ∀ c ∈ cgid, c.isDigit = true)
    (hog : ogid ≠ []) (hogd : ∀ c ∈ ogid, c.isDigit = true) :
    _rewrite_workbook_links doc cgid ogid (_rewrite_workbook_links doc cgid ogid wb) =
      _rewrite_workbook_links doc cgid ogid wb := by
  simp only [_rewrite_workbook_links, List.map_map]
  rw [Workbook.mk.injEq]
  refine ⟨?_, ?_⟩
  · apply List.map_congr_left
    intro r hr
    simp only [Function.comp_apply]
    exact congrArg
      (fun v => { ownerLink := v, ownerId := r.ownerId : ComplexSheetRow })
      (rewriteCell_idem doc ogid r.ownerId r.ownerLink hdoc hdocs hog hogd)
  · apply List.map_congr_left
    intro r hr
    simp only [Function.comp_apply]
    exact congrArg
      (fun v => { complexLink := v, propComplex := r.propComplex,
                  propUnit := r.propUnit, schedule := r.schedule : OwnerSheetRow })
      (rewriteCell_idem doc cgid (ownerSheetDefaultLabel r) r.complexLink
        hdoc hdocs hcg hcgd)

theorem claim_C8_link_rewrite_amended_witness :
    _rewrite_workbook_links "D".toList "0".toList "1".toList
        (_rewrite_workbook_links "D".toList "0".toList "1".toList
          ⟨[⟨[apos] ++ "S".toList ++ [apos] ++ "!B2".toList,
             "Own 1".toList⟩],
           [⟨[apos] ++ "S".toList ++ [apos] ++ "!D4".toList,
             "Complex A".toList, "2".toList, "SCH1".toList⟩]⟩) =
      _rewrite_workbook_links "D".toList "0".toList "1".toList
        ⟨[⟨[apos] ++ "S".toList ++ [apos] ++ "!B2".toList,
           "Own 1".toList⟩],
         [⟨[apos] ++ "S".toList ++ [apos] ++ "!D4".toList,
           "Complex A".toList, "2".toList, "SCH1".toList⟩]⟩ :=
  claim_C8_link_rewrite_amended "D".toList "0".toList "1".toList
    ⟨[⟨[apos] ++ "S".toList ++ [apos] ++ "!B2".toList,
       "Own 1".toList⟩],
     [⟨[apos] ++ "S".toList ++ [apos] ++ "!D4".toList,
       "Complex A".toList, "2".toList, "SCH1".toList⟩]⟩
    (by decide) (by decide) (by decide) (by decide) (by decide) (by decide)

/-- Claim C8 counterexample: with document id "D" and the non-digit owner gid
"X", an `Owner Link` cell holding a sheet-qualified reference is first rewritten
to a formula whose label (the `Owner ID` cell) itself contains a quoted sheet
reference; on the second pass the HYPERLINK regex fails (no digits after
`gid=`), the fallback `CELL_REF_RE` search extracts the reference out of the
label text instead, and the rebuilt formula differs — rewriting twice is not
the same as rewriting once. -/
theorem claim_C8_counterexample :
    _rewrite_workbook_links "D".toList "0".toList "X".toList
        (_rewrite_workbook_links "D".toList "0".toList "X".toList
          ⟨[⟨[apos] ++ "S".toList ++ [apos] ++ "!B2".toList,
             [apos] ++ "S".toList ++ [apos] ++ "!C3".toList⟩], []⟩) ≠
      _rewrite_workbook_links "D".toList "0".toList "X".toList
        ⟨[⟨[apos] ++ "S".toList ++ [apos] ++ "!B2".toList,
           [apos] ++ "S".toList ++ [apos] ++ "!C3".toList⟩], []⟩ := by
  decide
